import Mathlib

/-!
# A verification of the `surl` signed-URL library

This file gives a shallow embedding, in Lean, of the Go library `leg100/surl`
(signing and verifying of expiring URLs), and proves properties of that
embedding.  The embedding follows the current generation of the source: the
signer (`Signer`, `New`, `Sign`, `Verify`, options), the two formatters
(`queryFormatter`, `pathFormatter`), the integer encodings (`stdIntEncoding`,
`base58Encoding`) and the external functions the source calls
(`golang.org/x/crypto/blake2b`, `encoding/base64`, `net/url`, `path`,
`strconv`, `itchyny/base58-go`).

Machine integers are modelled as `Nat`/`Int` with explicit reduction modulo
`2 ^ 64` where Go would overflow.  Strings are modelled as `List Char`
(the source only ever manipulates ASCII bytes).  Fallible Go functions return
`Option`/`Except`; a Go run-time panic is modelled by `Option.none` in the
result of `Verify`.
-/

set_option maxRecDepth 1000000

namespace Surl

/-! ## 64-bit words -/

/-- Addition modulo `2 ^ 64`. -/
def add64 (a b : Nat) : Nat := (a + b) % 2 ^ 64

/-- Right rotation of a 64-bit word.  For `x < 2 ^ 64` the two summands do not
overlap, so no final reduction is needed. -/
def rotr64 (x n : Nat) : Nat := x / 2 ^ n + x % 2 ^ n * 2 ^ (64 - n)

/-! ## BLAKE2b-256 (external: `golang.org/x/crypto/blake2b`)

The signer's hash engine is a keyed BLAKE2b-256.  It is implemented here in
full (RFC 7693) so that the model is executable; the implementation is
validated against the signature test vector embedded in the repository's own
tests. -/

/-- BLAKE2b initialization vector. -/
def blakeIV : List Nat :=
  [0x6a09e667f3bcc908, 0xbb67ae8584caa73b, 0x3c6ef372fe94f82b, 0xa54ff53a5f1d36f1,
   0x510e527fade682d1, 0x9b05688c2b3e6c1f, 0x1f83d9abfb41bd6b, 0x5be0cd19137e2179]

/-- BLAKE2b message schedule. -/
def blakeSigma : List (List Nat) :=
  [[0, 1, 2, 3, 4, 5, 6, 7, 8, 9, 10, 11, 12, 13, 14, 15],
   [14, 10, 4, 8, 9, 15, 13, 6, 1, 12, 0, 2, 11, 7, 5, 3],
   [11, 8, 12, 0, 5, 2, 15, 13, 10, 14, 3, 6, 7, 1, 9, 4],
   [7, 9, 3, 1, 13, 12, 11, 14, 2, 6, 5, 10, 4, 0, 15, 8],
   [9, 0, 5, 7, 2, 4, 10, 15, 14, 1, 11, 12, 6, 8, 3, 13],
   [2, 12, 6, 10, 0, 11, 8, 3, 4, 13, 7, 5, 15, 14, 1, 9],
   [12, 5, 1, 15, 14, 13, 4, 10, 0, 7, 6, 3, 9, 2, 8, 11],
   [13, 11, 7, 14, 12, 1, 3, 9, 5, 0, 15, 4, 8, 6, 2, 10],
   [6, 15, 14, 9, 11, 3, 0, 8, 12, 2, 13, 7, 1, 4, 10, 5],
   [10, 2, 8, 4, 7, 6, 1, 5, 15, 11, 9, 14, 3, 12, 13, 0]]

/-- The BLAKE2b G mixing function acting on the 16-word work vector. -/
def blakeG (v : List Nat) (a b c d x y : Nat) : List Nat :=
  let va := add64 (add64 (v.getD a 0) (v.getD b 0)) x
  let vd := rotr64 (Nat.xor (v.getD d 0) va) 32
  let vc := add64 (v.getD c 0) vd
  let vb := rotr64 (Nat.xor (v.getD b 0) vc) 24
  let va2 := add64 (add64 va vb) y
  let vd2 := rotr64 (Nat.xor vd va2) 16
  let vc2 := add64 vc vd2
  let vb2 := rotr64 (Nat.xor vb vc2) 63
  ((((v.set a va2).set b vb2).set c vc2).set d vd2)

/-- One round of the BLAKE2b compression function. -/
def blakeRound (m : List Nat) (v : List Nat) (r : Nat) : List Nat :=
  let s := blakeSigma.getD (r % 10) []
  let mi := fun i => m.getD (s.getD i 0) 0
  let v1 := blakeG v 0 4 8 12 (mi 0) (mi 1)
  let v2 := blakeG v1 1 5 9 13 (mi 2) (mi 3)
  let v3 := blakeG v2 2 6 10 14 (mi 4) (mi 5)
  let v4 := blakeG v3 3 7 11 15 (mi 6) (mi 7)
  let v5 := blakeG v4 0 5 10 15 (mi 8) (mi 9)
  let v6 := blakeG v5 1 6 11 12 (mi 10) (mi 11)
  let v7 := blakeG v6 2 7 8 13 (mi 12) (mi 13)
  blakeG v7 3 4 9 14 (mi 14) (mi 15)

/-- The BLAKE2b compression function F; `t` is the byte counter and `f` the
final-block flag. -/
def blakeCompress (h : List Nat) (m : List Nat) (t : Nat) (f : Bool) : List Nat :=
  let v0 := h ++ blakeIV
  let v1 := v0.set 12 (Nat.xor (v0.getD 12 0) (t % 2 ^ 64))
  let v2 := v1.set 13 (Nat.xor (v1.getD 13 0) (t / 2 ^ 64))
  let v3 := if f then v2.set 14 (Nat.xor (v2.getD 14 0) (2 ^ 64 - 1)) else v2
  let v := (List.range 12).foldl (blakeRound m) v3
  (List.range 8).map fun i => Nat.xor (h.getD i 0) (Nat.xor (v.getD i 0) (v.getD (i + 8) 0))

/-- Split a byte list into 64-bit little-endian words (8 bytes each). -/
def leWords : List Nat → List Nat
  | b0 :: b1 :: b2 :: b3 :: b4 :: b5 :: b6 :: b7 :: rest =>
      (b0 + 256 * (b1 + 256 * (b2 + 256 * (b3 + 256 * (b4 + 256 * (b5 + 256 * (b6 + 256 * b7)))))))
        :: leWords rest
  | [] => []
  | l => [l.foldr (fun b acc => acc * 256 + b) 0]

/-- Fuel-driven 128-byte chunking (structural recursion so that the kernel can
evaluate it). -/
def blocksGo : Nat → List Nat → List (List Nat)
  | 0, l => [l]
  | fuel + 1, l =>
      if l.length ≤ 128 then [l] else l.take 128 :: blocksGo fuel (l.drop 128)

/-- Split a message into 128-byte blocks; only the final block may be short.
An empty message yields a single empty block. -/
def blake2bBlocks (l : List Nat) : List (List Nat) := blocksGo l.length l

/-- Fold the compression function over the message blocks.  `t` counts the
bytes already compressed and `total` is the total byte count (including any
key block). -/
def blakeFold (h : List Nat) (bs : List (List Nat)) (t : Nat) (total : Nat) : List Nat :=
  match bs with
  | [] => h
  | [b] => blakeCompress h (leWords (b ++ List.replicate (128 - b.length) 0)) total true
  | b :: rest => blakeFold (blakeCompress h (leWords b) (t + 128) false) rest (t + 128) total

/-- Serialize a 64-bit word to 8 little-endian bytes. -/
def wordLEBytes (w : Nat) : List Nat :=
  [w % 256, w / 256 % 256, w / 256 ^ 2 % 256, w / 256 ^ 3 % 256,
   w / 256 ^ 4 % 256, w / 256 ^ 5 % 256, w / 256 ^ 6 % 256, w / 256 ^ 7 % 256]

/-- Keyed BLAKE2b-256: the digest `golang.org/x/crypto/blake2b.New256(key)`
yields after writing `msg` and summing.  Expects `key.length ≤ 64`, which the
signer's constructor guarantees by truncation. -/
def blake2b256 (key msg : List Nat) : List Nat :=
  let kk := key.length
  let h0 := blakeIV.set 0 (Nat.xor (blakeIV.getD 0 0) (0x01010000 + kk * 256 + 32))
  let hFinal :=
    if kk == 0 then
      blakeFold h0 (blake2bBlocks msg) 0 msg.length
    else
      let keyBlock := key ++ List.replicate (128 - kk) 0
      if msg.isEmpty then
        blakeCompress h0 (leWords keyBlock) 128 true
      else
        blakeFold (blakeCompress h0 (leWords keyBlock) 128 false) (blake2bBlocks msg) 128
          (128 + msg.length)
  ((hFinal.take 4).map wordLEBytes).flatten

/-! ## base64, raw URL alphabet (external: `encoding/base64.RawURLEncoding`) -/

/-- The URL-safe base64 alphabet. -/
def b64Alphabet : List Char :=
  "ABCDEFGHIJKLMNOPQRSTUVWXYZabcdefghijklmnopqrstuvwxyz0123456789-_".toList

def b64Char (n : Nat) : Char := b64Alphabet.getD n 'A'

/-- Encode bytes as unpadded URL-safe base64 (`EncodeToString`). -/
def b64urlEncode : List Nat → List Char
  | b0 :: b1 :: b2 :: rest =>
      b64Char (b0 / 4) :: b64Char (b0 % 4 * 16 + b1 / 16) ::
        b64Char (b1 % 16 * 4 + b2 / 64) :: b64Char (b2 % 64) :: b64urlEncode rest
  | [b0, b1] => [b64Char (b0 / 4), b64Char (b0 % 4 * 16 + b1 / 16), b64Char (b1 % 16 * 4)]
  | [b0] => [b64Char (b0 / 4), b64Char (b0 % 4 * 16)]
  | [] => []

def b64Val (c : Char) : Option Nat := b64Alphabet.findIdx? (· == c)

/-- Decode unpadded URL-safe base64 (`DecodeString`), mirroring Go's default
(non-strict) decoder: a length of 1 mod 4 or a character outside the alphabet
is an error, while non-zero trailing padding bits in the final character are
silently ignored. -/
def b64urlDecode : List Char → Option (List Nat)
  | [] => some []
  | [_] => none
  | [c0, c1] => do
      let v0 ← b64Val c0
      let v1 ← b64Val c1
      pure [v0 * 4 + v1 / 16]
  | [c0, c1, c2] => do
      let v0 ← b64Val c0
      let v1 ← b64Val c1
      let v2 ← b64Val c2
      pure [v0 * 4 + v1 / 16, v1 % 16 * 16 + v2 / 4]
  | c0 :: c1 :: c2 :: c3 :: rest => do
      let v0 ← b64Val c0
      let v1 ← b64Val c1
      let v2 ← b64Val c2
      let v3 ← b64Val c3
      let tl ← b64urlDecode rest
      pure ([v0 * 4 + v1 / 16, v1 % 16 * 16 + v2 / 4, v2 % 4 * 64 + v3] ++ tl)

/-- Bytes of an ASCII string. -/
def strBytes (s : String) : List Nat := s.toList.map Char.toNat

/-- Characters of a string (the model of Go strings). -/
def str (s : String) : List Char := s.toList

/-! ## Go string helpers (`strings.Cut`, `strings.HasPrefix`, ASCII case) -/

/-- `strings.Cut(s, string(c))`: the part before the first `c`, the part after
it, and whether `c` occurred. -/
def cutChar (c : Char) : List Char → List Char × List Char × Bool
  | [] => ([], [], false)
  | a :: rest =>
      if a = c then ([], rest, true)
      else
        let r := cutChar c rest
        (a :: r.1, r.2.1, r.2.2)

/-- `strings.HasPrefix`. -/
def goHasPrefix (s pre : List Char) : Bool := pre.isPrefixOf s

/-- `strings.Contains(s, string(c))`. -/
def containsChar (c : Char) : List Char → Bool
  | [] => false
  | a :: rest => a = c ∨ containsChar c rest

/-- ASCII lower-casing of one character (`strings.ToLower` on ASCII). -/
def asciiLower (c : Char) : Char :=
  if 'A' ≤ c ∧ c ≤ 'Z' then Char.ofNat (c.toNat + 32) else c

/-! ## Little-endian digit expansions (shared by the integer encoders)

`natDigits` is a fuel-driven (hence kernel-executable) clone of
`Nat.digits`. -/

def natDigitsGo (b : Nat) : Nat → Nat → List Nat
  | 0, _ => []
  | _ + 1, 0 => []
  | fuel + 1, n => n % b :: natDigitsGo b fuel (n / b)

def natDigits (b n : Nat) : List Nat := natDigitsGo b n n

/-! ## `stdIntEncoding` (source: `int_encoding.go`; external: `strconv`) -/

/-- The digit alphabet used by `strconv.FormatInt`. -/
def digitsAlphabet : List Char := "0123456789abcdefghijklmnopqrstuvwxyz".toList

def digitChar (n : Nat) : Char := digitsAlphabet.getD n '0'

/-- `strconv.FormatInt` restricted to non-negative input. -/
def formatUint (b : Nat) (n : Nat) : List Char :=
  if n = 0 then ['0'] else (natDigits b n).reverse.map digitChar

/-- `strconv.FormatInt(i, b)`. -/
def formatInt (b : Nat) (i : Int) : List Char :=
  if i < 0 then '-' :: formatUint b (-i).toNat else formatUint b i.toNat

/-- The numeric value `strconv` assigns to a digit character. -/
def digitVal (c : Char) : Option Nat :=
  if '0' ≤ c ∧ c ≤ '9' then some (c.toNat - '0'.toNat)
  else if 'a' ≤ c ∧ c ≤ 'z' then some (c.toNat - 'a'.toNat + 10)
  else if 'A' ≤ c ∧ c ≤ 'Z' then some (c.toNat - 'A'.toNat + 10)
  else none

/-- Fold digits in base `b`, failing on a character that is not a digit below
`b`.  The exact value is accumulated; the caller applies Go's range checks,
which is equivalent to `strconv`'s incremental overflow checks. -/
def parseDigitsGo (b : Nat) (acc : Nat) : List Char → Option Nat
  | [] => some acc
  | c :: rest =>
      match digitVal c with
      | none => none
      | some d => if d < b then parseDigitsGo b (acc * b + d) rest else none

/-- `strconv.ParseInt(s, b, 64)`; `none` models the error case (syntax error or
value out of the int64 range). -/
def parseIntCore (b : Nat) (neg : Bool) (ds : List Char) : Option Int :=
  if ds = [] then none
  else
    match parseDigitsGo b 0 ds with
    | none => none
    | some un =>
        if un > 2 ^ 64 - 1 then none
        else if neg then
          if un > 2 ^ 63 then none else some (-(un : Int))
        else if un ≥ 2 ^ 63 then none
        else some (un : Int)

def parseIntGo (b : Nat) (s : List Char) : Option Int :=
  match s with
  | [] => none
  | c :: rest =>
      if c = '+' then parseIntCore b false rest
      else if c = '-' then parseIntCore b true rest
      else parseIntCore b false (c :: rest)

/-- `stdIntEncoding.Encode` from `int_encoding.go`: `strconv.FormatInt(i, b)`. -/
def stdIntEncoding.Encode (b : Nat) (i : Int) : List Char := formatInt b i

/-- `stdIntEncoding.Decode` from `int_encoding.go`: `strconv.ParseInt(s, b, 64)`. -/
def stdIntEncoding.Decode (b : Nat) (s : List Char) : Option Int := parseIntGo b s

/-! ## `base58Encoding` (source: `int_encoding.go`; external: `itchyny/base58-go`) -/

/-- The Flickr base58 alphabet. -/
def flickrAlphabet : List Char :=
  "123456789abcdefghijkmnopqrstuvwxyzABCDEFGHJKLMNPQRSTUVWXYZ".toList

def flickrChar (n : Nat) : Char := flickrAlphabet.getD n '1'

def flickrVal (c : Char) : Option Nat := flickrAlphabet.findIdx? (· == c)

/-- `uint64(i)`: Go's int64-to-uint64 cast. -/
def toUint64 (i : Int) : Nat := (i % (2 ^ 64 : Int)).toNat

/-- `int64(u)`: Go's uint64-to-int64 cast. -/
def ofUint64 (u : Nat) : Int := if u < 2 ^ 63 then (u : Int) else (u : Int) - 2 ^ 64

/-- `base58.FlickrEncoding.EncodeUint64`.  Zero encodes to the first alphabet
character; otherwise most-significant digit first. -/
def base58EncodeUint64 (n : Nat) : List Char :=
  if n = 0 then ['1'] else (natDigits 58 n).reverse.map flickrChar

/-- Digit fold of `base58.FlickrEncoding.DecodeUint64`: uint64 arithmetic, so
each step reduces modulo `2 ^ 64`; a character outside the alphabet is an
error. -/
def base58DecodeFold (acc : Nat) : List Char → Option Nat
  | [] => some acc
  | c :: rest =>
      match flickrVal c with
      | none => none
      | some d => base58DecodeFold ((acc * 58 + d) % 2 ^ 64) rest

/-- `base58Encoding.Encode` from `int_encoding.go`. -/
def base58Encoding.Encode (i : Int) : List Char := base58EncodeUint64 (toUint64 i)

/-- `base58Encoding.Decode` from `int_encoding.go`. -/
def base58Encoding.Decode (s : List Char) : Option Int :=
  (base58DecodeFold 0 s).map ofUint64

/-- The `intEncoding` interface of `int_encoding.go`, as the closed set of
variants the options can select. -/
inductive IntEnc
  | std (b : Nat)
  | b58
deriving DecidableEq, Repr

def IntEnc.Encode : IntEnc → Int → List Char
  | .std b, i => stdIntEncoding.Encode b i
  | .b58, i => base58Encoding.Encode i

def IntEnc.Decode : IntEnc → List Char → Option Int
  | .std b, s => stdIntEncoding.Decode b s
  | .b58, s => base58Encoding.Decode s

/-! ## `url.Values` (external: `net/url`)

Go's `url.Values` is a map from keys to lists of values; iteration order is
irrelevant because every serialization (`Encode`) sorts the keys.  The model
therefore keeps a canonical association list strictly sorted by key. -/

/-- Go's bytewise (lexicographic) string ordering, on ASCII characters. -/
def ltChars : List Char → List Char → Bool
  | [], [] => false
  | [], _ :: _ => true
  | _ :: _, [] => false
  | a :: as, b :: bs => if a = b then ltChars as bs else decide (a < b)

/-- The model of `url.Values`: keys (strictly sorted) with their value lists. -/
abbrev QVals := List (List Char × List (List Char))

/-- `Values.Add(k, v)`: append `v` to the key's list, keeping keys sorted. -/
def qAdd (m : QVals) (k v : List Char) : QVals :=
  match m with
  | [] => [(k, [v])]
  | (k2, vs) :: rest =>
      if k = k2 then (k2, vs ++ [v]) :: rest
      else if ltChars k k2 then (k, [v]) :: (k2, vs) :: rest
      else (k2, vs) :: qAdd rest k v

/-- `Values.Get(k)`: the first value for `k`, or `""`. -/
def qGet : QVals → List Char → List Char
  | [], _ => []
  | (k2, vs) :: rest, k => if k2 = k then vs.headD [] else qGet rest k

/-- `Values.Del(k)`. -/
def qDel : QVals → List Char → QVals
  | [], _ => []
  | (k2, vs) :: rest, k => if k2 = k then rest else (k2, vs) :: qDel rest k

/-! ### Percent-escaping (`url.QueryEscape`, `url.QueryUnescape` and friends) -/

def hexUpper : List Char := "0123456789ABCDEF".toList

def isAlphaNum (c : Char) : Bool :=
  ('a' ≤ c ∧ c ≤ 'z') ∨ ('A' ≤ c ∧ c ≤ 'Z') ∨ ('0' ≤ c ∧ c ≤ '9')

/-- Characters `url.QueryEscape` leaves untouched. -/
def isUnreserved (c : Char) : Bool :=
  isAlphaNum c ∨ c = '-' ∨ c = '_' ∨ c = '.' ∨ c = '~'

def pctEncode (c : Char) : List Char :=
  ['%', hexUpper.getD (c.toNat / 16) '0', hexUpper.getD (c.toNat % 16) '0']

/-- `url.QueryEscape`. -/
def queryEscape (s : List Char) : List Char :=
  (s.map fun c =>
    if isUnreserved c then [c] else if c = ' ' then ['+'] else pctEncode c).flatten

def hexVal (c : Char) : Option Nat :=
  if '0' ≤ c ∧ c ≤ '9' then some (c.toNat - '0'.toNat)
  else if 'a' ≤ c ∧ c ≤ 'f' then some (c.toNat - 'a'.toNat + 10)
  else if 'A' ≤ c ∧ c ≤ 'F' then some (c.toNat - 'A'.toNat + 10)
  else none

/-- `url.unescape`: percent-decoding.  `plusToSpace` is true in query mode
(`url.QueryUnescape`) and false in path/host mode.  A `%` not followed by two
hex digits is an error. -/
def unescapeGo (plusToSpace : Bool) : List Char → Option (List Char)
  | '%' :: h1 :: h2 :: rest => do
      let a ← hexVal h1
      let b ← hexVal h2
      let tl ← unescapeGo plusToSpace rest
      pure (Char.ofNat (a * 16 + b) :: tl)
  | '%' :: _ => none
  | c :: rest => do
      let tl ← unescapeGo plusToSpace rest
      pure ((if plusToSpace ∧ c = '+' then ' ' else c) :: tl)
  | [] => some []

/-- One step of Go's `parseQuery` loop body: fold the segment `kv` into the
map, skipping it on a semicolon, an empty segment, or an escape error. -/
def parseQuerySeg (m : QVals) (kv : List Char) : QVals :=
  if containsChar ';' kv then m
  else if kv = [] then m
  else
    let c := cutChar '=' kv
    match unescapeGo true c.1 with
    | none => m
    | some k =>
        match unescapeGo true c.2.1 with
        | none => m
        | some v => qAdd m k v

def parseQueryGo : Nat → QVals → List Char → QVals
  | 0, m, _ => m
  | fuel + 1, m, q =>
      if q = [] then m
      else
        let c := cutChar '&' q
        parseQueryGo fuel (parseQuerySeg m c.1) c.2.1

/-- `url.ParseQuery` as used via `url.URL.Query()`: the error is discarded and
offending segments are skipped. -/
def parseQuery (q : List Char) : QVals := parseQueryGo q.length [] q

/-- Join parts with a separator character. -/
def joinSep (c : Char) : List (List Char) → List Char
  | [] => []
  | [p] => p
  | p :: rest => p ++ c :: joinSep c rest

/-- `Values.Encode()`: keys in sorted order (which `QVals` maintains), each
value as `escape(k) = escape(v)`, joined by `&`. -/
def qEncode (m : QVals) : List Char :=
  joinSep '&'
    ((m.map fun p => p.2.map fun x => queryEscape p.1 ++ '=' :: queryEscape x).flatten)

/-! ## URLs (external: `net/url`)

The model covers absolute request URIs as `url.ParseRequestURI` accepts
them, including userinfo and bracketed IPv6(-zone) hosts.  The original
escaping of a path is not retained (`RawPath` is dropped), so a path whose
escaped and unescaped forms differ re-serializes in canonical form; all
claims are stated on inputs where that simplification is invisible. -/

/-- `*url.Userinfo`: the username and, when `passwordSet`, the password. -/
abbrev Userinfo := List Char × Option (List Char)

structure URL where
  scheme : List Char := []
  /-- `URL.Opaque`. -/
  opq : List Char := []
  /-- `URL.User`. -/
  userinfo : Option Userinfo := none
  host : List Char := []
  path : List Char := []
  rawQuery : List Char := []
  forceQuery : Bool := false
  omitHost : Bool := false
deriving DecidableEq, Repr

def isAlpha (c : Char) : Bool := ('a' ≤ c ∧ c ≤ 'z') ∨ ('A' ≤ c ∧ c ≤ 'Z')

def isDigit (c : Char) : Bool := '0' ≤ c ∧ c ≤ '9'

def isCtl (c : Char) : Bool := c.toNat < 0x20 ∨ c.toNat = 0x7f

/-- Result of `getScheme`: a hard error (`:` with an empty scheme), no scheme,
or a scheme plus the remainder. -/
inductive SchemeRes
  | err
  | noScheme
  | found (scheme rest : List Char)
deriving DecidableEq, Repr

def getSchemeAux (acc : List Char) : List Char → SchemeRes
  | [] => .noScheme
  | c :: rest =>
      if isAlpha c then getSchemeAux (acc ++ [c]) rest
      else if isDigit c ∨ c = '+' ∨ c = '-' ∨ c = '.' then
        if acc = [] then .noScheme else getSchemeAux (acc ++ [c]) rest
      else if c = ':' then
        if acc = [] then .err else .found acc rest
      else .noScheme

/-- `getScheme`: `none` is the "missing protocol scheme" error. -/
def getSchemeGo (s : List Char) : Option (List Char × List Char) :=
  match getSchemeAux [] s with
  | .err => none
  | .noScheme => some ([], s)
  | .found sch rest => some (sch, rest)

/-- The pieces before and after the LAST occurrence of `c`
(`strings.LastIndex` and the two slices around it). -/
def lastSplitChar (c : Char) (s : List Char) : Option (List Char × List Char) :=
  let r := cutChar c s.reverse
  if r.2.2 then some (r.2.1.reverse, r.1.reverse) else none

/-- Characters `shouldEscape` leaves alone in `encodeHost` and `encodeZone`
mode. -/
def hostKeepChar (c : Char) : Bool :=
  isAlphaNum c ∨ c = '-' ∨ c = '_' ∨ c = '.' ∨ c = '~' ∨
    c = '!' ∨ c = '$' ∨ c = '&' ∨ c.toNat = 39 ∨ c = '(' ∨ c = ')' ∨ c = '*' ∨ c = '+' ∨
    c = ',' ∨ c = ';' ∨ c = '=' ∨ c = ':' ∨ c = '[' ∨ c = ']' ∨ c = '<' ∨ c = '>' ∨ c.toNat = 34

/-- `url.unescape` in `encodeHost` mode: a `%`-escape of an ASCII byte other
than `%25` is an error, as is a raw ASCII character the host encoding would
escape. -/
def unescapeHost : List Char → Option (List Char)
  | '%' :: h1 :: h2 :: rest => do
      let a ← hexVal h1
      let b ← hexVal h2
      if a < 8 ∧ ¬ (h1 = '2' ∧ h2 = '5') then none
      else do
        let tl ← unescapeHost rest
        pure (Char.ofNat (a * 16 + b) :: tl)
  | '%' :: _ => none
  | c :: rest =>
      if c.toNat < 0x80 ∧ ¬ hostKeepChar c then none
      else do
        let tl ← unescapeHost rest
        pure (c :: tl)
  | [] => some []

/-- `url.unescape` in `encodeZone` mode: a `%`-escape must be `%25`, a space,
or a byte the host encoding keeps. -/
def unescapeZone : List Char → Option (List Char)
  | '%' :: h1 :: h2 :: rest => do
      let a ← hexVal h1
      let b ← hexVal h2
      if ¬ (h1 = '2' ∧ h2 = '5') ∧ a * 16 + b ≠ 32 ∧
          ¬ hostKeepChar (Char.ofNat (a * 16 + b)) then none
      else do
        let tl ← unescapeZone rest
        pure (Char.ofNat (a * 16 + b) :: tl)
  | '%' :: _ => none
  | c :: rest =>
      if c.toNat < 0x80 ∧ ¬ hostKeepChar c then none
      else do
        let tl ← unescapeZone rest
        pure (c :: tl)
  | [] => some []

/-- `url.validOptionalPort`. -/
def validOptionalPort : List Char → Bool
  | [] => true
  | ':' :: rest => rest.all isDigit
  | _ => false

/-- Split at the first occurrence of the substring `%25`
(`strings.Index(s, "%25")` and the slices around it). -/
def splitSub25 : List Char → Option (List Char × List Char)
  | '%' :: '2' :: '5' :: rest => some ([], rest)
  | c :: rest => (splitSub25 rest).map fun p => (c :: p.1, p.2)
  | [] => none

/-- `net/url.parseHost`: a bracketed IPv6(-zone) literal with an optional
port, or a plain host with an optional port, then `encodeHost` unescaping. -/
def parseHostGo (host : List Char) : Option (List Char) :=
  if goHasPrefix host ['['] then
    match lastSplitChar ']' host with
    | none => none
    | some (before, after) =>
        if ¬ validOptionalPort after then none
        else
          match splitSub25 before with
          | some (pre, post) => do
              let h1 ← unescapeHost pre
              let h2 ← unescapeZone ('%' :: '2' :: '5' :: post)
              let h3 ← unescapeHost (']' :: after)
              pure (h1 ++ h2 ++ h3)
          | none => unescapeHost host
  else
    match lastSplitChar ':' host with
    | some (_, after) =>
        if ¬ validOptionalPort (':' :: after) then none
        else unescapeHost host
    | none => unescapeHost host

/-- `url.validUserinfo`. -/
def validUserinfoChar (c : Char) : Bool :=
  isAlphaNum c ∨ c = '-' ∨ c = '.' ∨ c = '_' ∨ c = ':' ∨ c = '~' ∨ c = '!' ∨ c = '$' ∨
    c = '&' ∨ c.toNat = 39 ∨ c = '(' ∨ c = ')' ∨ c = '*' ∨ c = '+' ∨ c = ',' ∨
    c = ';' ∨ c = '=' ∨ c = '%' ∨ c = '@'

/-- `net/url.parseAuthority`: split at the last `@`, parse the host, then
validate and percent-decode the userinfo (cutting at the first `:` when a
password is present). -/
def parseAuthorityGo (authority : List Char) :
    Option (Option Userinfo × List Char) :=
  match lastSplitChar '@' authority with
  | none =>
      match parseHostGo authority with
      | none => none
      | some host => some (none, host)
  | some (userinfo, hostPart) =>
      match parseHostGo hostPart with
      | none => none
      | some host =>
          if ¬ userinfo.all validUserinfoChar then none
          else if ¬ containsChar ':' userinfo then
            match unescapeGo false userinfo with
            | none => none
            | some user => some (some (user, none), host)
          else
            let c := cutChar ':' userinfo
            match unescapeGo false c.1 with
            | none => none
            | some user =>
                match unescapeGo false c.2.1 with
                | none => none
                | some pass => some (some (user, some pass), host)

/-- `url.ParseRequestURI`; `none` models every parse error. -/
def parseRequestURI (s : List Char) : Option URL :=
  if s.any isCtl then none
  else
    match getSchemeGo s with
    | none => none
    | some (sch0, rest0) =>
        let sch := sch0.map asciiLower
        let cutq :=
          if rest0.getLast? = some '?' ∧ ¬ containsChar '?' rest0.dropLast then
            (rest0.dropLast, [], true)
          else
            let cq := cutChar '?' rest0
            (cq.1, cq.2.1, false)
        let rest := cutq.1
        let rawQ := cutq.2.1
        let fq := cutq.2.2
        if ¬ goHasPrefix rest ['/'] then
          if sch ≠ [] then
            some { scheme := sch, opq := rest, rawQuery := rawQ, forceQuery := fq }
          else none
        else if sch ≠ [] ∧ goHasPrefix rest ['/', '/'] then
          let auth0 := rest.drop 2
          let ci := cutChar '/' auth0
          let authority := if ci.2.2 then ci.1 else auth0
          let rest2 := if ci.2.2 then '/' :: ci.2.1 else []
          match parseAuthorityGo authority with
          | none => none
          | some (user, host) =>
              match unescapeGo false rest2 with
              | none => none
              | some p =>
                  some { scheme := sch, userinfo := user, host := host, path := p,
                         rawQuery := rawQ, forceQuery := fq }
        else
          match unescapeGo false rest with
          | none => none
          | some p =>
              some { scheme := sch, path := p, rawQuery := rawQ, forceQuery := fq,
                     omitHost := sch ≠ [] }

/-! ### Serialization (`url.URL.String`) -/

def escapeWith (keep : Char → Bool) (s : List Char) : List Char :=
  (s.map fun c => if keep c then [c] else pctEncode c).flatten

/-- Characters `shouldEscape` leaves alone in `encodePath` mode. -/
def pathKeepChar (c : Char) : Bool :=
  isAlphaNum c ∨ c = '-' ∨ c = '_' ∨ c = '.' ∨ c = '~' ∨
    c = '$' ∨ c = '&' ∨ c = '+' ∨ c = ',' ∨ c = '/' ∨ c = ':' ∨ c = ';' ∨ c = '=' ∨ c = '@'

/-- Characters `shouldEscape` leaves alone in `encodeUserPassword` mode. -/
def userKeepChar (c : Char) : Bool :=
  isAlphaNum c ∨ c = '-' ∨ c = '_' ∨ c = '.' ∨ c = '~' ∨
    c = '$' ∨ c = '&' ∨ c = '+' ∨ c = ',' ∨ c = ';' ∨ c = '='

/-- `url.Userinfo.String`. -/
def userinfoString : Userinfo → List Char
  | (user, none) => escapeWith userKeepChar user
  | (user, some pass) =>
      escapeWith userKeepChar user ++ ':' :: escapeWith userKeepChar pass

/-- `url.URL.EscapedPath` (without `RawPath`, see above). -/
def escapedPath (u : URL) : List Char := escapeWith pathKeepChar u.path

/-- `url.URL.String()` on the modelled fields. -/
def urlString (u : URL) : List Char :=
  let buf0 := if u.scheme ≠ [] then u.scheme ++ [':'] else []
  let core :=
    if u.opq ≠ [] then u.opq
    else
      let auth :=
        if u.scheme ≠ [] ∨ u.host ≠ [] ∨ u.userinfo ≠ none then
          if u.omitHost ∧ u.host = [] ∧ u.userinfo = none then []
          else
            (if u.host ≠ [] ∨ u.path ≠ [] ∨ u.userinfo ≠ none then ['/', '/'] else []) ++
              (match u.userinfo with
               | some ui => userinfoString ui ++ ['@']
               | none => []) ++
              escapeWith hostKeepChar u.host
        else []
      let p := escapedPath u
      let slash := if p ≠ [] ∧ p.headD ' ' ≠ '/' ∧ u.host ≠ [] then ['/'] else []
      let dotSlash :=
        if buf0 = [] ∧ auth = [] ∧ slash = [] ∧ containsChar ':' (cutChar '/' p).1 then
          str "./"
        else []
      auth ++ slash ++ dotSlash ++ p
  let q := if u.forceQuery ∨ u.rawQuery ≠ [] then '?' :: u.rawQuery else []
  buf0 ++ core ++ q

/-! ## `path.Clean` and `path.Join` (external: `path`) -/

/-- Split on a character; `""` splits to `[""]`. -/
def splitOnChar (c : Char) : List Char → List (List Char)
  | [] => [[]]
  | a :: rest =>
      let r := splitOnChar c rest
      if a = c then [] :: r else (a :: r.headD []) :: r.tail

/-- The segment-stack core of `path.Clean`. -/
def cleanStack (rooted : Bool) : List (List Char) → List (List Char) → List (List Char)
  | stack, [] => stack.reverse
  | stack, seg :: rest =>
      if seg = [] ∨ seg = ['.'] then cleanStack rooted stack rest
      else if seg = ['.', '.'] then
        match stack with
        | top :: stack2 =>
            if top = ['.', '.'] then cleanStack rooted (seg :: top :: stack2) rest
            else cleanStack rooted stack2 rest
        | [] => if rooted then cleanStack rooted [] rest else cleanStack rooted [seg] rest
  else cleanStack rooted (seg :: stack) rest

/-- `path.Clean` (lexical cleaning; equivalent segment-based formulation). -/
def pathClean (p : List Char) : List Char :=
  if p = [] then ['.']
  else
    let rooted := p.headD ' ' = '/'
    let segs := splitOnChar '/' (if rooted then p.tail else p)
    let core := joinSep '/' (cleanStack rooted [] segs)
    let res := (if rooted then ['/'] else []) ++ core
    if res = [] then ['.'] else res

/-- `path.Join(a, b)` as called by `Sign` (two arguments). -/
def pathJoin (a b : List Char) : List Char :=
  if a = [] ∧ b = [] then []
  else if a = [] then pathClean b
  else if b = [] then pathClean a
  else pathClean (a ++ '/' :: b)

/-! ## The signer (source: the current `signer.go`, plus `formatter.go`'s
`formatter` interface and `payloadOptions`) -/

/-- The error taxonomy of `signer.go`.  `invalidSignatureB64` is the
`fmt.Errorf("%w: invalid base64: ...", ErrInvalidSignature)` wrapper, which
`errors.Is` identifies with `ErrInvalidSignature`. -/
inductive SErr
  | invalidURL
  | invalidSignature
  | invalidSignatureB64
  | invalidFormat
  | expired
  | decodeError
deriving DecidableEq, Repr

instance : DecidableEq (Except SErr Unit) := fun a b =>
  match a, b with
  | .ok x, .ok y => .isTrue (by cases x; cases y; rfl)
  | .error x, .error y =>
      if h : x = y then .isTrue (by rw [h]) else .isFalse (by simp [h])
  | .ok _, .error _ => .isFalse (by simp)
  | .error _, .ok _ => .isFalse (by simp)

instance {α : Type} [DecidableEq α] : DecidableEq (Except SErr α) := fun a b =>
  match a, b with
  | .ok x, .ok y => if h : x = y then .isTrue (by rw [h]) else .isFalse (by simp [h])
  | .error x, .error y =>
      if h : x = y then .isTrue (by rw [h]) else .isFalse (by simp [h])
  | .ok _, .error _ => .isFalse (by simp)
  | .error _, .ok _ => .isFalse (by simp)

/-- `errors.Is(e, ErrInvalidSignature)`. -/
def SErr.isInvalidSignature : SErr → Bool
  | .invalidSignature => true
  | .invalidSignatureB64 => true
  | _ => false

/-- `payloadOptions` from `formatter.go`.  Note that both implementations of
`buildPayload` in the source consult only `skipQuery`; the `skipScheme` field
is declared and set by the `SkipScheme` option but read nowhere. -/
structure PayloadOpts where
  skipQuery : Bool
  skipScheme : Bool
deriving DecidableEq, Repr

/-- The closed set of formatters the options can select. -/
inductive FmtKind
  | query
  | path
deriving DecidableEq, Repr

/-- The `Signer` struct: the key (already truncated by `New`), the path
prefix and the configuration.  The hash engine's mutable state is modelled
separately (see `SignEngine` below); `Signer.sign` is the digest each
invocation returns. -/
structure Signer where
  key : List Nat
  pfx : List Char
  skipQuery : Bool
  skipScheme : Bool
  fmt : FmtKind
  enc : IntEnc
deriving DecidableEq, Repr

def Signer.payloadOpts (s : Signer) : PayloadOpts := ⟨s.skipQuery, s.skipScheme⟩

/-- `Signer.sign`: the digest a call of the (serialized, reset-before-reuse)
hash engine produces, namely keyed BLAKE2b-256 of the payload alone.  The
equivalence with the stateful engine is proved below (`signEngine_fresh`). -/
def Signer.sign (s : Signer) (data : List Nat) : List Nat := blake2b256 s.key data

/-! ### `queryFormatter` (source: the current `query_formatter.go`) -/

def queryFormatter.addExpiry (u : URL) (expiry : List Char) : URL :=
  { u with rawQuery := qEncode (qAdd (parseQuery u.rawQuery) (str "expiry") expiry) }

/-- `queryFormatter.buildPayload`: with `skipQuery`, keep only the `expiry`
parameter; `opts.skipScheme` is not consulted (mirroring the source). -/
def queryFormatter.buildPayload (u : URL) (opts : PayloadOpts) : List Char :=
  let u2 :=
    if opts.skipQuery then
      { u with rawQuery := qEncode [(str "expiry", [qGet (parseQuery u.rawQuery) (str "expiry")])] }
    else u
  urlString u2

def queryFormatter.addSignature (u : URL) (sig : List Char) : URL :=
  { u with rawQuery := qEncode (qAdd (parseQuery u.rawQuery) (str "signature") sig) }

def queryFormatter.extractSignature (u : URL) : Except SErr (List Char × URL) :=
  let q := parseQuery u.rawQuery
  let sig := qGet q (str "signature")
  if sig = [] then .error .invalidFormat
  else .ok (sig, { u with rawQuery := qEncode (qDel q (str "signature")) })

def queryFormatter.extractExpiry (u : URL) : Except SErr (List Char × URL) :=
  let q := parseQuery u.rawQuery
  let e := qGet q (str "expiry")
  if e = [] then .error .invalidFormat
  else .ok (e, { u with rawQuery := qEncode (qDel q (str "expiry")) })

/-! ### `pathFormatter` (source: the `pathFormatter` of the repository's path
formatter file; format `<sig>.<exp><original path>`) -/

def pathFormatter.addExpiry (u : URL) (expiry : List Char) : URL :=
  { u with path := expiry ++ u.path }

/-- `pathFormatter.buildPayload`: with `skipQuery` the whole query is dropped;
`opts.skipScheme` is not consulted (mirroring the source). -/
def pathFormatter.buildPayload (u : URL) (opts : PayloadOpts) : List Char :=
  urlString (if opts.skipQuery then { u with rawQuery := [] } else u)

def pathFormatter.addSignature (u : URL) (sig : List Char) : URL :=
  { u with path := '/' :: (sig ++ '.' :: u.path) }

/-- `pathFormatter.ExtractSignature`.  `none` models the Go panic: after
`strings.Cut(u.Path, ".")` the source evaluates `sig[1:]`, which panics when
the part before the dot is empty. -/
def pathFormatter.extractSignature (u : URL) : Option (Except SErr (List Char × URL)) :=
  let c := cutChar '.' u.path
  if ¬ c.2.2 then some (.error .invalidFormat)
  else
    match c.1 with
    | [] => none
    | _ :: sigTail => some (.ok (sigTail, { u with path := c.2.1 }))

def pathFormatter.extractExpiry (u : URL) : Except SErr (List Char × URL) :=
  let c := cutChar '/' u.path
  if ¬ c.2.2 then .error .invalidFormat
  else .ok (c.1, { u with path := '/' :: c.2.1 })

/-! ### Formatter dispatch on the signer's configuration -/

def Signer.addExpiry (s : Signer) (u : URL) (e : List Char) : URL :=
  match s.fmt with
  | .query => queryFormatter.addExpiry u e
  | .path => pathFormatter.addExpiry u e

def Signer.buildPayload (s : Signer) (u : URL) (opts : PayloadOpts) : List Char :=
  match s.fmt with
  | .query => queryFormatter.buildPayload u opts
  | .path => pathFormatter.buildPayload u opts

def Signer.addSignature (s : Signer) (u : URL) (sig : List Char) : URL :=
  match s.fmt with
  | .query => queryFormatter.addSignature u sig
  | .path => pathFormatter.addSignature u sig

def Signer.extractSignature (s : Signer) (u : URL) : Option (Except SErr (List Char × URL)) :=
  match s.fmt with
  | .query => some (queryFormatter.extractSignature u)
  | .path => pathFormatter.extractSignature u

def Signer.extractExpiry (s : Signer) (u : URL) : Except SErr (List Char × URL) :=
  match s.fmt with
  | .query => queryFormatter.extractExpiry u
  | .path => pathFormatter.extractExpiry u

/-! ### Construction (`New` and the options) -/

/-- The source's `Option` (constructor customisation). -/
def SignerOption := Signer → Signer

def SkipQuery : SignerOption := fun s => { s with skipQuery := true }

def SkipScheme : SignerOption := fun s => { s with skipScheme := true }

def PrefixPath (p : List Char) : SignerOption := fun s => { s with pfx := p }

def WithQueryFormatter : SignerOption := fun s => { s with fmt := .query }

def WithPathFormatter : SignerOption := fun s => { s with fmt := .path }

def WithDecimalExpiry : SignerOption := fun s => { s with enc := .std 10 }

def WithBase58Expiry : SignerOption := fun s => { s with enc := .b58 }

/-- `New`: keys longer than 64 bytes are truncated (the only error
`blake2b.New256` can return is swallowed by hashing `key[0:64]`); the
defaults are the query formatter and decimal expiry, and caller options are
applied last so they override the defaults. -/
def New (key : List Nat) (opts : List SignerOption) : Signer :=
  let key := if key.length > 64 then key.take 64 else key
  let s : Signer :=
    { key := key, pfx := [], skipQuery := false, skipScheme := false,
      fmt := .query, enc := .std 10 }
  opts.foldl (fun s o => o s) s

/-! ### `Sign` and `Verify` -/

/-- `time.Time.Unix()`: model times as integer nanoseconds; `Unix` floors to
seconds. -/
def unixSec (t : Int) : Int := Int.fdiv t 1000000000

/-- `Signer.Sign(unsigned, expiry)`.  `expiry` is the `time.Time` argument in
nanoseconds. -/
def Signer.Sign (s : Signer) (unsigned : List Char) (expiry : Int) :
    Except SErr (List Char) :=
  match parseRequestURI unsigned with
  | none => .error .invalidURL
  | some u0 =>
      let encodedExpiry := s.enc.Encode (unixSec expiry)
      let u1 := s.addExpiry u0 encodedExpiry
      let payload := s.buildPayload u1 s.payloadOpts
      let sig := s.sign (payload.map Char.toNat)
      let encodedSig := b64urlEncode sig
      let u2 := s.addSignature u1 encodedSig
      let u3 := if s.pfx ≠ [] then { u2 with path := pathJoin s.pfx u2.path } else u2
      .ok (urlString u3)

/-- `Signer.Verify(signed)` at current time `now` (nanoseconds).  The outer
`Option` models a Go run-time panic (`none`); the `Except` carries the
returned error. -/
def Signer.Verify (s : Signer) (signed : List Char) (now : Int) :
    Option (Except SErr Unit) :=
  match parseRequestURI signed with
  | none => some (.error .invalidURL)
  | some u0 =>
      if ¬ goHasPrefix u0.path s.pfx then some (.error .invalidFormat)
      else
        let u1 := { u0 with path := u0.path.drop s.pfx.length }
        match s.extractSignature u1 with
        | none => none
        | some (.error e) => some (.error e)
        | some (.ok (encodedSig, u2)) =>
            match b64urlDecode encodedSig with
            | none => some (.error .invalidSignatureB64)
            | some sig =>
                let payload := s.buildPayload u2 s.payloadOpts
                let compare := s.sign (payload.map Char.toNat)
                if sig ≠ compare then some (.error .invalidSignature)
                else
                  match s.extractExpiry u2 with
                  | .error e => some (.error e)
                  | .ok (encodedExpiry, _) =>
                      match s.enc.Decode encodedExpiry with
                      | none => some (.error .decodeError)
                      | some expiry =>
                          if now > expiry * 1000000000 then some (.error .expired)
                          else some (.ok ())

/-! ### The stateful hash engine (source: `Signer.sign` with the mutex, the
`dirty` flag, `hash.Reset`, `hash.Write` and `hash.Sum`) -/

/-- The mutable state guarded by the signer's mutex: the `dirty` flag and the
hash context, modelled by the bytes written since construction or the last
reset (`blake2b`'s `Sum` is non-destructive, and `Reset` restores the keyed
initial state). -/
structure SignEngine where
  dirty : Bool
  written : List Nat
deriving DecidableEq, Repr

/-- A fresh engine, as `New` leaves it. -/
def SignEngine.initial : SignEngine := ⟨false, []⟩

/-- One call of the stateful `Signer.sign`: under the lock, reset if dirty,
mark dirty, write the payload, and sum. -/
def SignEngine.step (key : List Nat) (st : SignEngine) (data : List Nat) :
    List Nat × SignEngine :=
  let buf := if st.dirty then [] else st.written
  let buf2 := buf ++ data
  (blake2b256 key buf2, ⟨true, buf2⟩)

/-- The digests a sequence of payloads produces on one engine. -/
def SignEngine.run (key : List Nat) (st : SignEngine) : List (List Nat) → List (List Nat)
  | [] => []
  | d :: ds =>
      let r := SignEngine.step key st d
      r.1 :: SignEngine.run key r.2 ds

/-! ## Facts about the hash output -/

/-- Validation of the hash model against the repository's own test vector: the
pre-signed URL in `signer_test.go` embeds exactly this base64 signature for
this payload under the key `abc123`. -/
theorem blake2b256_vector :
    b64urlEncode (blake2b256 (strBytes "abc123") (strBytes "10887835696/a/b/c?baz=cow&foo=bar")) =
      str "_BGBJ-6OcP6GnoQz071_rU_VfMWRbi0MGLLQhfxesRg" := by decide

/-! ## Facts about base64 -/

theorem natDigitsGo_eq (b : Nat) (hb : 2 ≤ b) : ∀ (fuel n : Nat), n ≤ fuel →
    natDigitsGo b fuel n = Nat.digits b n
  | 0, n, hn => by
      have h0 : n = 0 := by omega
      subst h0
      simp [natDigitsGo]
  | fuel + 1, 0, _ => by simp [natDigitsGo]
  | fuel + 1, n + 1, hn => by
      show (n + 1) % b :: natDigitsGo b fuel ((n + 1) / b) = _
      rw [Nat.digits_def' (by omega : 1 < b) (Nat.succ_pos n)]
      congr 1
      apply natDigitsGo_eq b hb fuel
      have h2 : (n + 1) / b < n + 1 := Nat.div_lt_self (by omega) (by omega)
      omega

theorem natDigits_eq (b n : Nat) (hb : 2 ≤ b) : natDigits b n = Nat.digits b n :=
  natDigitsGo_eq b hb n n le_rfl

theorem digitVal_digitChar : ∀ d < 36, digitVal (digitChar d) = some d := by decide

theorem flickrVal_flickrChar : ∀ d < 58, flickrVal (flickrChar d) = some d := by decide

theorem parseDigitsGo_map (b : Nat) (hb : b ≤ 36) : ∀ (ds : List Nat) (acc : Nat),
    (∀ d ∈ ds, d < b) →
    parseDigitsGo b acc (ds.map digitChar) = some (ds.foldl (fun a d => a * b + d) acc)
  | [], _, _ => rfl
  | d :: ds, acc, h => by
      have hd : d < b := h d (by simp)
      show (match digitVal (digitChar d) with
        | none => none
        | some d2 => if d2 < b then parseDigitsGo b (acc * b + d2) (ds.map digitChar) else none) = _
      rw [digitVal_digitChar d (by omega)]
      simp only [if_pos hd]
      rw [parseDigitsGo_map b hb ds _ (fun x hx => h x (by simp [hx]))]
      rfl

theorem foldr_ofDigits (b : Nat) (L : List Nat) :
    L.foldr (fun d a => a * b + d) 0 = Nat.ofDigits b L := by
  induction L with
  | nil => simp [Nat.ofDigits]
  | cons d L ih =>
      simp only [List.foldr_cons, Nat.ofDigits_cons, ih]
      ring

theorem foldl_digits_reverse (b n : Nat) (_hb : 2 ≤ b) :
    ((Nat.digits b n).reverse).foldl (fun a d => a * b + d) 0 = n := by
  rw [List.foldl_reverse, foldr_ofDigits, Nat.ofDigits_digits]

theorem foldl_acc_le : ∀ (ds : List Nat) (acc : Nat),
    acc ≤ ds.foldl (fun a d => a * 58 + d) acc
  | [], acc => le_rfl
  | d :: ds, acc => by
      have h1 : acc ≤ acc * 58 + d := by omega
      have h2 := foldl_acc_le ds (acc * 58 + d)
      simp only [List.foldl_cons]
      omega

theorem base58DecodeFold_map : ∀ (ds : List Nat) (acc : Nat), (∀ d ∈ ds, d < 58) →
    ds.foldl (fun a d => a * 58 + d) acc < 2 ^ 64 →
    base58DecodeFold acc (ds.map flickrChar) = some (ds.foldl (fun a d => a * 58 + d) acc)
  | [], _, _, _ => rfl
  | d :: ds, acc, h, hbound => by
      have hd : d < 58 := h d (by simp)
      have hstep : acc * 58 + d ≤ (d :: ds).foldl (fun a d => a * 58 + d) acc := by
        simp only [List.foldl_cons]
        exact foldl_acc_le ds _
      show (match flickrVal (flickrChar d) with
        | none => none
        | some d2 => base58DecodeFold ((acc * 58 + d2) % 2 ^ 64) (ds.map flickrChar)) = _
      rw [flickrVal_flickrChar d hd]
      simp only
      rw [Nat.mod_eq_of_lt (by omega)]
      simp only [List.foldl_cons] at hbound
      rw [base58DecodeFold_map ds _ (fun x hx => h x (by simp [hx])) hbound]
      rfl

/-- Decimal round-trip on non-negative int64 values. -/
theorem decimal_roundtrip (x : Int) (h0 : 0 ≤ x) (h1 : x < 2 ^ 63) :
    stdIntEncoding.Decode 10 (stdIntEncoding.Encode 10 x) = some x := by
  unfold stdIntEncoding.Encode stdIntEncoding.Decode formatInt
  rw [if_neg (by omega)]
  have hxn : (x.toNat : Int) = x := Int.toNat_of_nonneg h0
  unfold formatUint
  by_cases h : x.toNat = 0
  · rw [if_pos h]
    have hx0 : x = 0 := by omega
    subst hx0
    decide
  · rw [if_neg h]
    rw [natDigits_eq 10 _ (by norm_num)]
    set ds := (Nat.digits 10 x.toNat).reverse with hds
    have hne : ds ≠ [] := by
      simp [hds, Nat.digits_ne_nil_iff_ne_zero, h]
    have hlt : ∀ d ∈ ds, d < 10 := by
      intro d hd
      rw [hds, List.mem_reverse] at hd
      exact Nat.digits_lt_base (by norm_num) hd
    have hval : ds.foldl (fun a d => a * 10 + d) 0 = x.toNat := by
      rw [hds, foldl_digits_reverse 10 _ (by norm_num)]
    obtain ⟨d, ds2, hcons⟩ := List.exists_cons_of_ne_nil hne
    have hd10 : d < 10 := hlt d (by rw [hcons]; simp)
    have hnp : digitChar d ≠ '+' ∧ digitChar d ≠ '-' := by
      have : ∀ e < 10, digitChar e ≠ '+' ∧ digitChar e ≠ '-' := by decide
      exact this d hd10
    rw [hcons]
    show (if digitChar d = '+' then parseIntCore 10 false (ds2.map digitChar)
      else if digitChar d = '-' then parseIntCore 10 true (ds2.map digitChar)
      else parseIntCore 10 false (digitChar d :: ds2.map digitChar)) = some x
    rw [if_neg hnp.1, if_neg hnp.2]
    unfold parseIntCore
    rw [if_neg (by simp)]
    have hmap : digitChar d :: ds2.map digitChar = (d :: ds2).map digitChar := rfl
    rw [hmap, parseDigitsGo_map 10 (by norm_num) (d :: ds2) 0 (by rw [← hcons]; exact hlt)]
    simp only [← hcons, hval]
    have hlt63 : ¬ (x.toNat ≥ 2 ^ 63) := by omega
    rw [if_neg (by omega)]
    simp only [Bool.false_eq_true, if_false]
    rw [if_neg hlt63, hxn]

/-- Base58 round-trip on non-negative int64 values. -/
theorem base58_roundtrip (x : Int) (h0 : 0 ≤ x) (h1 : x < 2 ^ 63) :
    base58Encoding.Decode (base58Encoding.Encode x) = some x := by
  unfold base58Encoding.Encode base58Encoding.Decode base58EncodeUint64
  have htu : toUint64 x = x.toNat := by
    unfold toUint64
    rw [Int.emod_eq_of_lt h0 (by omega)]
  rw [htu]
  have hxn : (x.toNat : Int) = x := Int.toNat_of_nonneg h0
  by_cases h : x.toNat = 0
  · rw [if_pos h]
    have hx0 : x = 0 := by omega
    subst hx0
    decide
  · rw [if_neg h]
    rw [natDigits_eq 58 _ (by norm_num)]
    set ds := (Nat.digits 58 x.toNat).reverse with hds
    have hlt : ∀ d ∈ ds, d < 58 := by
      intro d hd
      rw [hds, List.mem_reverse] at hd
      exact Nat.digits_lt_base (by norm_num) hd
    have hval : ds.foldl (fun a d => a * 58 + d) 0 = x.toNat := by
      rw [hds, foldl_digits_reverse 58 _ (by norm_num)]
    rw [base58DecodeFold_map ds 0 hlt (by rw [hval]; omega)]
    rw [hval]
    show some (ofUint64 x.toNat) = some x
    unfold ofUint64
    rw [if_pos (by omega), hxn]

/-! ## Claim C6: encoder round-trips and fixed vectors -/

/-- C6: for every representable non-negative int64 `x`, `Decode (Encode x) = x`
for both the decimal and the base58 encoder, and the fixed vectors
`3507595200 → "3507595200"` (decimal) and `3507595200 → "6kXkRj"` (base58)
hold. -/
theorem claim_C6 :
    (∀ x : Int, 0 ≤ x → x < 2 ^ 63 →
        stdIntEncoding.Decode 10 (stdIntEncoding.Encode 10 x) = some x ∧
        base58Encoding.Decode (base58Encoding.Encode x) = some x) ∧
      stdIntEncoding.Encode 10 3507595200 = str "3507595200" ∧
      base58Encoding.Encode 3507595200 = str "6kXkRj" :=
  ⟨fun x h0 h1 => ⟨decimal_roundtrip x h0 h1, base58_roundtrip x h0 h1⟩, by decide, by decide⟩

/-- Witness for C6 at the concrete input `3507595200`. -/
theorem claim_C6_witness :
    stdIntEncoding.Decode 10 (stdIntEncoding.Encode 10 3507595200) = some 3507595200 ∧
      base58Encoding.Decode (base58Encoding.Encode 3507595200) = some 3507595200 :=
  claim_C6.1 3507595200 (by decide) (by decide)

/-! ## Claim C8: keys longer than 64 bytes are silently truncated -/

/-- C8: for every key of more than 64 bytes, `New k opts` constructs the very
same signer as `New (k[0:64]) opts`, so `Sign` and `Verify` behave
identically; no error is surfaced. -/
theorem claim_C8 (k : List Nat) (opts : List SignerOption) (h : k.length > 64) :
    New k opts = New (k.take 64) opts ∧
      (∀ u e, (New k opts).Sign u e = (New (k.take 64) opts).Sign u e) ∧
      (∀ u now, (New k opts).Verify u now = (New (k.take 64) opts).Verify u now) := by
  have hN : New k opts = New (k.take 64) opts := by
    unfold New
    rw [if_pos h, if_neg (by rw [List.length_take]; omega)]
  exact ⟨hN, fun u e => by rw [hN], fun u now => by rw [hN]⟩

/-- Witness for C8 with a concrete 65-byte key. -/
theorem claim_C8_witness :
    (List.replicate 65 7).length > 64 ∧
      New (List.replicate 65 7) [] = New ((List.replicate 65 7).take 64) [] :=
  ⟨by decide, (claim_C8 (List.replicate 65 7) [] (by decide)).1⟩

/-! ## Claim C9: the reused hash context behaves like a fresh one per call -/

theorem signEngine_run_dirty (key : List Nat) : ∀ (ds : List (List Nat)) (w : List Nat),
    SignEngine.run key ⟨true, w⟩ ds = ds.map (blake2b256 key)
  | [], _ => rfl
  | d :: ds, w => by
      show blake2b256 key d :: SignEngine.run key ⟨true, d⟩ ds = _
      rw [signEngine_run_dirty key ds d]
      rfl

/-- C9: on one signer, every sequential invocation of the internal `sign`
(reset-before-reuse of the dirty hash context) returns exactly the keyed
BLAKE2b-256 digest of that call's payload alone, for every payload sequence:
the reused context is equivalent to a per-call fresh context. -/
theorem claim_C9 (key : List Nat) (ds : List (List Nat)) :
    SignEngine.run key SignEngine.initial ds = ds.map (blake2b256 key) := by
  cases ds with
  | nil => rfl
  | cons d ds =>
      show blake2b256 key d :: SignEngine.run key ⟨true, d⟩ ds = _
      rw [signEngine_run_dirty key ds d]
      rfl

/-! ## Claim C7: totality of `Verify` (amended) -/

/-- With a path that does not begin with `.`, the path formatter's signature
extraction cannot hit the panicking `sig[1:]` slice. -/
theorem pathExtract_ne_none (u : URL) (h : u.path.headD ' ' ≠ '.') :
    pathFormatter.extractSignature u ≠ none := by
  unfold pathFormatter.extractSignature
  cases hu : u.path with
  | nil => simp [cutChar]
  | cons c cs =>
      have hc : c ≠ '.' := by
        rw [hu] at h
        simpa using h
      simp only [cutChar, if_neg hc]
      split
      · simp
      · simp

/-- The inputs on which `Verify` does not reach the panicking slice: every
input except, for the path formatter, a URL whose parsed path after prefix
stripping begins with `.`. -/
def noPanicCond (s : Signer) (input : List Char) : Bool :=
  match parseRequestURI input with
  | none => true
  | some u =>
      ¬ (s.fmt = .path ∧ goHasPrefix u.path s.pfx ∧
          (u.path.drop s.pfx.length).headD ' ' = '.')

/-- C7 (amended): `Verify` returns a result (never panics) on every input
string and configuration, except that with the path formatter an input whose
parsed path, after prefix stripping, begins with `.` reaches the
out-of-range slice `sig[1:]` in `ExtractSignature` and panics. -/
theorem claim_C7 (s : Signer) (input : List Char) (now : Int)
    (hc : noPanicCond s input) :
    s.Verify input now ≠ none := by
  have h : ∀ u, parseRequestURI input = some u → goHasPrefix u.path s.pfx →
      s.fmt = .path → ((u.path.drop s.pfx.length).headD ' ' ≠ '.') := by
    intro u hu hpre hf
    unfold noPanicCond at hc
    rw [hu] at hc
    simp only [decide_not, Bool.not_eq_eq_eq_not, Bool.not_true, decide_eq_false_iff_not] at hc
    intro hdot
    exact hc ⟨hf, hpre, hdot⟩
  unfold Signer.Verify
  cases hp : parseRequestURI input with
  | none => simp
  | some u =>
      simp only
      by_cases hpre : goHasPrefix u.path s.pfx
      · rw [if_neg (by simp [hpre])]
        have hext : s.extractSignature { u with path := u.path.drop s.pfx.length } ≠ none := by
          unfold Signer.extractSignature
          cases hf : s.fmt with
          | query => simp
          | path => exact pathExtract_ne_none _ (h u hp hpre hf)
        cases hes : s.extractSignature { u with path := u.path.drop s.pfx.length } with
        | none => exact absurd hes hext
        | some r =>
            cases r with
            | error e => simp
            | ok pr =>
                simp only
                cases hb : b64urlDecode pr.1 with
                | none => simp [hb]
                | some sig =>
                    simp only [hb]
                    split
                    · simp
                    · cases hee : s.extractExpiry pr.2 with
                      | error e => simp [hee]
                      | ok er =>
                          simp only [hee]
                          cases hd : s.enc.Decode er.1 with
                          | none => simp [hd]
                          | some expiry =>
                              simp only [hd]
                              split <;> simp
      · simp [hpre]

/-- Counterexample to C7 as stated: with the path formatter and prefix
`/signed`, verifying `http://abc.com/signed.123/foo/bar` panics (the slice
`sig[1:]` is out of range), so `Verify` is not total; the same panic is
reached through authorities with userinfo and with a bracketed IPv6 host,
which `ParseRequestURI` accepts. -/
theorem claim_C7_counterexample :
    (New (strBytes "abc123") [WithPathFormatter, PrefixPath (str "/signed")]).Verify
      (str "http://abc.com/signed.123/foo/bar") 0 = none ∧
    (New (strBytes "abc123") [WithPathFormatter, PrefixPath (str "/signed")]).Verify
      (str "http://user@abc.com/signed.123/foo/bar") 0 = none ∧
    (New (strBytes "abc123") [WithPathFormatter, PrefixPath (str "/signed")]).Verify
      (str "http://[::1]/signed.123/foo/bar") 0 = none := by
  refine ⟨by decide, by decide, by decide⟩

/-- Witness for C7: a configuration and input satisfying the hypothesis. -/
theorem claim_C7_witness :
    noPanicCond (New (strBytes "abc123") []) (str "https://example.com/a?x=1") = true ∧
      (New (strBytes "abc123") []).Verify (str "https://example.com/a?x=1") 0 ≠ none :=
  ⟨by decide, claim_C7 _ _ 0 (by decide)⟩

/-! ## List split/join lemmas (for `path.Clean`, `path.Join` and query
serialization) -/

theorem splitOnChar_no (c : Char) : ∀ (s : List Char), c ∉ s → splitOnChar c s = [s]
  | [], _ => rfl
  | a :: rest, h => by
      have ha : a ≠ c := fun he => h (by simp [he])
      have hr : c ∉ rest := fun hm => h (by simp [hm])
      simp only [splitOnChar, if_neg ha, splitOnChar_no c rest hr]
      rfl

theorem splitOnChar_ne_nil (c : Char) : ∀ (s : List Char), splitOnChar c s ≠ []
  | [] => by simp [splitOnChar]
  | a :: rest => by
      simp only [splitOnChar]
      split <;> simp

theorem splitOnChar_append_sep (c : Char) :
    ∀ (x y : List Char), c ∉ x → splitOnChar c (x ++ c :: y) = x :: splitOnChar c y
  | [], y, _ => by simp [splitOnChar]
  | a :: x, y, h => by
      have ha : a ≠ c := fun he => h (by simp [he])
      have hx : c ∉ x := fun hm => h (by simp [hm])
      have ih := splitOnChar_append_sep c x y hx
      rw [List.cons_append]
      simp only [splitOnChar, if_neg ha]
      rw [ih]
      simp

theorem splitOnChar_not_mem (c : Char) : ∀ (s : List Char), ∀ p ∈ splitOnChar c s, c ∉ p
  | [], p, hp => by
      simp only [splitOnChar, List.mem_singleton] at hp
      subst hp
      simp
  | a :: rest, p, hp => by
      by_cases ha : a = c
      · rw [show splitOnChar c (a :: rest) = [] :: splitOnChar c rest by
          simp [splitOnChar, ha]] at hp
        rcases List.mem_cons.mp hp with rfl | hp2
        · simp
        · exact splitOnChar_not_mem c rest p hp2
      · simp only [splitOnChar, if_neg ha] at hp
        obtain ⟨q, r, hqr⟩ : ∃ q r, splitOnChar c rest = q :: r :=
          List.exists_cons_of_ne_nil (splitOnChar_ne_nil c rest)
        rw [hqr] at hp
        simp only [List.headD_cons, List.tail_cons, List.mem_cons] at hp
        rcases hp with rfl | hp
        · intro hm
          rcases List.mem_cons.mp hm with he | hm2
          · exact ha he.symm
          · exact splitOnChar_not_mem c rest q (by rw [hqr]; simp) hm2
        · exact splitOnChar_not_mem c rest p (by rw [hqr]; simp [hp])

theorem joinSep_cons_cons (c : Char) (p q : List Char) (r : List (List Char)) :
    joinSep c (p :: q :: r) = p ++ c :: joinSep c (q :: r) := rfl

theorem joinSep_splitOnChar (c : Char) : ∀ (s : List Char), joinSep c (splitOnChar c s) = s
  | [] => rfl
  | a :: rest => by
      obtain ⟨q, r, hqr⟩ : ∃ q r, splitOnChar c rest = q :: r :=
        List.exists_cons_of_ne_nil (splitOnChar_ne_nil c rest)
      by_cases ha : a = c
      · rw [show splitOnChar c (a :: rest) = [] :: splitOnChar c rest by
          simp [splitOnChar, ha]]
        rw [hqr, joinSep_cons_cons, ← hqr, joinSep_splitOnChar c rest, ha]
        rfl
      · simp only [splitOnChar, if_neg ha, hqr]
        simp only [List.headD_cons, List.tail_cons]
        have : joinSep c ((a :: q) :: r) = a :: joinSep c (q :: r) := by
          cases r with
          | nil => rfl
          | cons p r2 => rfl
        rw [this, ← hqr, joinSep_splitOnChar c rest]

theorem joinSep_append (c : Char) :
    ∀ (xs ys : List (List Char)), xs ≠ [] → ys ≠ [] →
      joinSep c (xs ++ ys) = joinSep c xs ++ c :: joinSep c ys
  | [], _, hx, _ => absurd rfl hx
  | [p], q :: r, _, _ => rfl
  | p :: p2 :: xs, ys, _, hy => by
      rw [show (p :: p2 :: xs) ++ ys = p :: p2 :: (xs ++ ys) from rfl]
      rw [joinSep_cons_cons, joinSep_cons_cons]
      rw [show p2 :: (xs ++ ys) = (p2 :: xs) ++ ys from rfl]
      rw [joinSep_append c (p2 :: xs) ys (by simp) hy]
      simp

theorem splitOnChar_joinSep (c : Char) :
    ∀ (parts : List (List Char)), parts ≠ [] → (∀ p ∈ parts, c ∉ p) →
      splitOnChar c (joinSep c parts) = parts
  | [], hne, _ => absurd rfl hne
  | [p], _, h => by
      simp only [joinSep]
      exact splitOnChar_no c p (h p (by simp))
  | p :: q :: r, _, h => by
      rw [joinSep_cons_cons, splitOnChar_append_sep c p _ (h p (by simp))]
      rw [splitOnChar_joinSep c (q :: r) (by simp) (fun x hx => h x (by simp [hx]))]

/-! ## `path.Clean` on well-formed paths -/

/-- A path segment that `Clean` keeps verbatim. -/
def segOK (s : List Char) : Bool := s ≠ [] ∧ s ≠ ['.'] ∧ s ≠ ['.', '.']

/-- A rooted path that `path.Clean` leaves unchanged: starts with `/`, no
empty segments, no `.` or `..` segments (hence no trailing slash). -/
def rootedClean (p : List Char) : Bool :=
  match p with
  | '/' :: rest => (splitOnChar '/' rest).all segOK
  | _ => false

theorem cleanStack_noDots (rooted : Bool) :
    ∀ (segs st : List (List Char)), (∀ s ∈ segs, s ≠ ['.', '.']) →
      cleanStack rooted st segs =
        st.reverse ++ segs.filter (fun s => ¬(s = [] ∨ s = ['.']))
  | [], st, _ => by simp [cleanStack]
  | seg :: segs, st, h => by
      by_cases hskip : seg = [] ∨ seg = ['.']
      · rw [show cleanStack rooted st (seg :: segs) = cleanStack rooted st segs by
          simp only [cleanStack, if_pos hskip]]
        rw [cleanStack_noDots rooted segs st (fun s hs => h s (by simp [hs]))]
        congr 1
        rcases hskip with h1 | h1 <;> rw [List.filter_cons_of_neg (by simp [h1])]
      · have hdd : seg ≠ ['.', '.'] := h seg (by simp)
        rw [show cleanStack rooted st (seg :: segs) = cleanStack rooted (seg :: st) segs by
          simp only [cleanStack, if_neg hskip, if_neg hdd]]
        rw [cleanStack_noDots rooted segs (seg :: st) (fun s hs => h s (by simp [hs]))]
        rw [List.filter_cons_of_pos (by simp [not_or] at hskip; simp [hskip.1, hskip.2])]
        simp

theorem rootedClean_shape (p : List Char) (h : rootedClean p) :
    ∃ rest, p = '/' :: rest ∧ ∀ s ∈ splitOnChar '/' rest, segOK s := by
  unfold rootedClean at h
  split at h
  · next rest => exact ⟨rest, rfl, fun s hs => List.all_eq_true.mp h s hs⟩
  · simp at h

theorem segOK_spec (s : List Char) (h : segOK s) :
    s ≠ [] ∧ s ≠ ['.'] ∧ s ≠ ['.', '.'] := by
  unfold segOK at h
  simp only [Bool.and_eq_true, decide_eq_true_eq] at h
  exact h

theorem pathClean_rootedClean (p : List Char) (h : rootedClean p) : pathClean p = p := by
  obtain ⟨rest, rfl, hall⟩ := rootedClean_shape p h
  unfold pathClean
  rw [if_neg (by simp)]
  simp only [List.headD_cons, List.tail_cons, if_pos trivial, decide_true_eq_true]
  rw [cleanStack_noDots true _ [] (fun s hs => (segOK_spec s (hall s hs)).2.2)]
  rw [List.filter_eq_self.mpr (fun s hs => by
    obtain ⟨h1, h2, _⟩ := segOK_spec s (hall s hs)
    simp [h1, h2])]
  simp only [List.reverse_nil, List.nil_append, joinSep_splitOnChar]
  rw [if_neg (by simp)]
  rfl

theorem rootedClean_ne_nil (p : List Char) (h : rootedClean p) : p ≠ [] := by
  obtain ⟨rest, rfl, -⟩ := rootedClean_shape p h
  simp

/-- On clean rooted components, `path.Join` is concatenation. -/
theorem pathJoin_clean (a b : List Char) (ha : rootedClean a) (hb : rootedClean b) :
    pathJoin a b = a ++ b := by
  obtain ⟨ar, rfl, hsa⟩ := rootedClean_shape a ha
  obtain ⟨br, rfl, hsb⟩ := rootedClean_shape b hb
  unfold pathJoin
  rw [if_neg (by simp), if_neg (by simp), if_neg (by simp)]
  have hrw : ('/' :: ar) ++ '/' :: ('/' :: br) =
      '/' :: (joinSep '/' (splitOnChar '/' ar ++ [] :: splitOnChar '/' br)) := by
    rw [joinSep_append '/' _ _ (splitOnChar_ne_nil _ _) (by simp)]
    rw [joinSep_splitOnChar]
    have hj : joinSep '/' ([] :: splitOnChar '/' br) =
        '/' :: joinSep '/' (splitOnChar '/' br) := by
      obtain ⟨q, r, hqr⟩ : ∃ q r, splitOnChar '/' br = q :: r :=
        List.exists_cons_of_ne_nil (splitOnChar_ne_nil _ _)
      rw [hqr, joinSep_cons_cons]
      rfl
    rw [hj, joinSep_splitOnChar]
    rfl
  rw [hrw]
  unfold pathClean
  rw [if_neg (by simp)]
  simp only [List.headD_cons, List.tail_cons, if_pos trivial, decide_true_eq_true]
  rw [splitOnChar_joinSep '/' _ (by simp) (by
    intro x hx
    rcases List.mem_append.mp hx with h1 | h1
    · exact splitOnChar_not_mem '/' ar x h1
    · rcases List.mem_cons.mp h1 with rfl | h2
      · simp
      · exact splitOnChar_not_mem '/' br x h2)]
  rw [cleanStack_noDots true _ [] (by
    intro s hs
    rcases List.mem_append.mp hs with h1 | h1
    · exact (segOK_spec s (hsa s h1)).2.2
    · rcases List.mem_cons.mp h1 with rfl | h2
      · simp
      · exact (segOK_spec s (hsb s h2)).2.2)]
  have hfil : (splitOnChar '/' ar ++ [] :: splitOnChar '/' br).filter
      (fun s => ¬(s = [] ∨ s = ['.'])) =
      splitOnChar '/' ar ++ splitOnChar '/' br := by
    rw [List.filter_append]
    congr 1
    · exact List.filter_eq_self.mpr (fun s hs => by
        obtain ⟨h1, h2, -⟩ := segOK_spec s (hsa s hs)
        simp [h1, h2])
    · rw [List.filter_cons_of_neg (by simp)]
      exact List.filter_eq_self.mpr (fun s hs => by
        obtain ⟨h1, h2, -⟩ := segOK_spec s (hsb s hs)
        simp [h1, h2])
  rw [hfil]
  simp only [List.reverse_nil, List.nil_append]
  rw [joinSep_append '/' _ _ (splitOnChar_ne_nil _ _) (splitOnChar_ne_nil _ _)]
  rw [joinSep_splitOnChar, joinSep_splitOnChar]
  rw [if_neg (by simp)]
  rfl

/-! ## Facts about the canonical `url.Values` model -/

theorem ltChars_irrefl : ∀ (s : List Char), ltChars s s = false
  | [] => rfl
  | a :: s => by simp [ltChars, ltChars_irrefl s]

theorem ltChars_ne : ∀ (a b : List Char), ltChars a b = true → a ≠ b
  | [], [], h => by simp [ltChars] at h
  | [], _ :: _, _ => by simp
  | _ :: _, [], h => by simp [ltChars] at h
  | a :: as, b :: bs, h => by
      by_cases hab : a = b
      · subst hab
        simp only [ltChars, if_pos rfl] at h
        have := ltChars_ne as bs h
        simp [this]
      · simp [hab]

theorem ltChars_asymm : ∀ (a b : List Char), ltChars a b = true → ltChars b a = false
  | [], [], h => by simp [ltChars] at h
  | [], _ :: _, _ => by simp [ltChars]
  | _ :: _, [], h => by simp [ltChars] at h
  | a :: as, b :: bs, h => by
      by_cases hab : a = b
      · subst hab
        simp only [ltChars, if_pos rfl] at h ⊢
        exact ltChars_asymm as bs h
      · simp only [ltChars, if_neg hab] at h
        simp only [ltChars, if_neg (Ne.symm hab)]
        simp only [decide_eq_true_eq] at h
        simp [not_lt_of_gt h]

theorem ltChars_trans : ∀ (a b c : List Char),
    ltChars a b = true → ltChars b c = true → ltChars a c = true
  | [], _, _ :: _, _, _ => by simp [ltChars]
  | [], b, [], h1, h2 => by
      cases b with
      | nil => simp [ltChars] at h1
      | cons x xs => simp [ltChars] at h2
  | _ :: _, [], _, h1, _ => by simp [ltChars] at h1
  | a :: as, b :: bs, [], _, h2 => by simp [ltChars] at h2
  | a :: as, b :: bs, c :: cs, h1, h2 => by
      by_cases hab : a = b
      · subst hab
        simp only [ltChars, if_pos rfl] at h1
        by_cases hbc : a = c
        · subst hbc
          simp only [ltChars, if_pos rfl] at h2 ⊢
          exact ltChars_trans as bs cs h1 h2
        · simp only [ltChars, if_neg hbc] at h2 ⊢
          exact h2
      · simp only [ltChars, if_neg hab, decide_eq_true_eq] at h1
        by_cases hbc : b = c
        · subst hbc
          simp only [ltChars, if_neg hab, decide_eq_true_eq]
          exact h1
        · simp only [ltChars, if_neg hbc, decide_eq_true_eq] at h2
          have hac : a < c := lt_trans h1 h2
          have hane : a ≠ c := ne_of_lt hac
          simp [ltChars, if_neg hane, hac]

/-- Key membership in the `url.Values` model. -/
def qHasKey : QVals → List Char → Bool
  | [], _ => false
  | (k2, _) :: rest, k => k2 = k ∨ qHasKey rest k

theorem qHasKey_cons_false (k2 k : List Char) (vs : List (List Char))
    (rest : QVals) (h : qHasKey ((k2, vs) :: rest) k = false) :
    k2 ≠ k ∧ qHasKey rest k = false := by
  simp only [qHasKey] at h
  constructor
  · intro he
    simp [he] at h
  · cases hq : qHasKey rest k
    · rfl
    · simp [hq] at h

theorem qGet_qAdd_fresh (m : QVals) (k v : List Char) (h : qHasKey m k = false) :
    qGet (qAdd m k v) k = v := by
  induction m with
  | nil => simp [qAdd, qGet]
  | cons p rest ih =>
      obtain ⟨k2, vs⟩ := p
      obtain ⟨h1, h2⟩ := qHasKey_cons_false k2 k vs rest h
      simp only [qAdd, if_neg (Ne.symm h1)]
      split
      · simp [qGet]
      · simp [qGet, if_neg h1, ih h2]

theorem qDel_qAdd_fresh (m : QVals) (k v : List Char) (h : qHasKey m k = false) :
    qDel (qAdd m k v) k = m := by
  induction m with
  | nil => simp [qAdd, qDel]
  | cons p rest ih =>
      obtain ⟨k2, vs⟩ := p
      obtain ⟨h1, h2⟩ := qHasKey_cons_false k2 k vs rest h
      simp only [qAdd, if_neg (Ne.symm h1)]
      split
      · simp [qDel, if_neg h1]
      · simp [qDel, if_neg h1, ih h2]

theorem qGet_qAdd_other (m : QVals) (k k2 v : List Char) (h : k2 ≠ k) :
    qGet (qAdd m k2 v) k = qGet m k := by
  induction m with
  | nil => simp [qAdd, qGet, h]
  | cons p rest ih =>
      obtain ⟨k3, vs⟩ := p
      simp only [qAdd]
      by_cases h23 : k2 = k3
      · subst h23
        simp [qGet, h]
      · rw [if_neg h23]
        split
        · simp [qGet, if_neg h]
        · by_cases h3 : k3 = k
          · simp [qGet, h3]
          · simp [qGet, h3, ih]

theorem qHasKey_qAdd (m : QVals) (k k2 v : List Char) :
    qHasKey (qAdd m k2 v) k = true ↔ (k2 = k ∨ qHasKey m k = true) := by
  induction m with
  | nil => simp [qAdd, qHasKey]
  | cons p rest ih =>
      obtain ⟨k3, vs⟩ := p
      simp only [qAdd]
      by_cases h23 : k2 = k3
      · subst h23
        simp [qHasKey]
      · rw [if_neg h23]
        split
        · simp only [qHasKey, Bool.or_eq_true, decide_eq_true_eq]
          try tauto
        · simp only [qHasKey, Bool.or_eq_true, decide_eq_true_eq, ih]
          try tauto

/-! ## Cut/contains/escape lemmas -/

theorem containsChar_eq_false (c : Char) : ∀ (s : List Char),
    (∀ x ∈ s, x ≠ c) → containsChar c s = false
  | [], _ => rfl
  | a :: rest, h => by
      simp only [containsChar, Bool.or_eq_false_iff, decide_eq_false_iff_not]
      intro hor
      rcases hor with h1 | h1
      · exact h a (by simp) h1
      · rw [containsChar_eq_false c rest (fun x hx => h x (by simp [hx]))] at h1
        exact absurd h1 (by simp)

theorem cutChar_not_found (c : Char) : ∀ (s : List Char),
    (∀ x ∈ s, x ≠ c) → cutChar c s = (s, [], false)
  | [], _ => rfl
  | a :: rest, h => by
      simp only [cutChar, if_neg (h a (by simp))]
      rw [cutChar_not_found c rest (fun x hx => h x (by simp [hx]))]

theorem cutChar_found (c : Char) : ∀ (x y : List Char),
    (∀ a ∈ x, a ≠ c) → cutChar c (x ++ c :: y) = (x, y, true)
  | [], y, _ => by simp [cutChar]
  | a :: x, y, h => by
      rw [List.cons_append]
      simp only [cutChar, if_neg (h a (by simp))]
      rw [cutChar_found c x y (fun b hb => h b (by simp [hb]))]

theorem queryEscape_id : ∀ (s : List Char),
    (∀ x ∈ s, isUnreserved x = true) → queryEscape s = s
  | [], _ => rfl
  | a :: rest, h => by
      have ha := h a (by simp)
      have ih := queryEscape_id rest (fun x hx => h x (by simp [hx]))
      simp only [queryEscape, List.map_cons, List.flatten_cons, if_pos ha] at ih ⊢
      rw [ih]
      rfl

theorem escapeWith_id (keep : Char → Bool) : ∀ (s : List Char),
    (∀ x ∈ s, keep x = true) → escapeWith keep s = s
  | [], _ => rfl
  | a :: rest, h => by
      have ha := h a (by simp)
      have ih := escapeWith_id keep rest (fun x hx => h x (by simp [hx]))
      simp only [escapeWith, List.map_cons, List.flatten_cons, if_pos ha] at ih ⊢
      rw [ih]
      rfl

theorem unescapeGo_cons_ne (b : Bool) (c : Char) (rest : List Char) (hc : c ≠ '%') :
    unescapeGo b (c :: rest) =
      (unescapeGo b rest).bind fun tl => some ((if b ∧ c = '+' then ' ' else c) :: tl) := by
  conv_lhs => unfold unescapeGo
  split
  · rename_i heq
    rw [List.cons.injEq] at heq
    exact absurd heq.1 hc
  · rename_i heq
    rw [List.cons.injEq] at heq
    exact absurd heq.1 hc
  · rename_i heq
    rw [List.cons.injEq] at heq
    obtain ⟨h1, h2⟩ := heq
    subst h1
    subst h2
    rfl
  · rename_i heq
    exact absurd heq (by simp)

theorem unescapeGo_id (b : Bool) : ∀ (s : List Char),
    (∀ x ∈ s, x ≠ '%' ∧ x ≠ '+') → unescapeGo b s = some s
  | [], _ => rfl
  | c :: rest, h => by
      have hc := h c (by simp)
      have ih := unescapeGo_id b rest (fun x hx => h x (by simp [hx]))
      rw [unescapeGo_cons_ne b c rest hc.1, ih]
      simp only [Option.bind_eq_bind, Option.some_bind]
      rw [if_neg (fun hand => hc.2 hand.2)]

/-! ## Sortedness of the canonical `url.Values` and rebuilding folds -/

theorem ltChars_total : ∀ (a b : List Char), a = b ∨ ltChars a b = true ∨ ltChars b a = true
  | [], [] => Or.inl rfl
  | [], _ :: _ => Or.inr (Or.inl (by simp [ltChars]))
  | _ :: _, [] => Or.inr (Or.inr (by simp [ltChars]))
  | a :: as, b :: bs => by
      by_cases hab : a = b
      · subst hab
        rcases ltChars_total as bs with h | h | h
        · exact Or.inl (by rw [h])
        · exact Or.inr (Or.inl (by simp [ltChars, h]))
        · exact Or.inr (Or.inr (by simp [ltChars, h]))
      · rcases lt_or_gt_of_ne (fun he => hab he) with h | h
        · exact Or.inr (Or.inl (by simp [ltChars, if_neg hab, h]))
        · exact Or.inr (Or.inr (by simp [ltChars, if_neg (Ne.symm hab), h]))

/-- If every key of `W` is (strictly) below `k`, `Add` appends at the end. -/
theorem qAdd_gt : ∀ (W : QVals) (k v : List Char),
    (∀ p ∈ W, ltChars p.1 k = true) → qAdd W k v = W ++ [(k, [v])]
  | [], _, _, _ => rfl
  | (k2, vs) :: W, k, v, h => by
      have h2 : ltChars k2 k = true := h (k2, vs) (by simp)
      have hne : ¬ (k = k2) := Ne.symm (ltChars_ne _ _ h2)
      have hlt : ¬ (ltChars k k2 = true) := by
        rw [ltChars_asymm _ _ h2]
        simp
      simp only [qAdd, if_neg hne, if_neg hlt]
      rw [qAdd_gt W k v (fun p hp => h p (by simp [hp]))]
      simp

theorem qAdd_last : ∀ (W : QVals) (k : List Char) (us : List (List Char)) (v : List Char),
    (∀ p ∈ W, ltChars p.1 k = true) →
    qAdd (W ++ [(k, us)]) k v = W ++ [(k, us ++ [v])]
  | [], k, us, v, _ => by simp [qAdd]
  | (k2, vs) :: W, k, us, v, h => by
      have h2 : ltChars k2 k = true := h (k2, vs) (by simp)
      have hne : ¬ (k = k2) := Ne.symm (ltChars_ne _ _ h2)
      have hlt : ¬ (ltChars k k2 = true) := by
        rw [ltChars_asymm _ _ h2]
        simp
      simp only [List.cons_append, qAdd, if_neg hne, if_neg hlt]
      exact congrArg _ (qAdd_last W k us v (fun p hp => h p (by simp [hp])))

theorem foldl_qAdd_vals : ∀ (vs : List (List Char)) (W : QVals) (k : List Char)
    (us : List (List Char)), (∀ p ∈ W, ltChars p.1 k = true) →
    vs.foldl (fun acc v => qAdd acc k v) (W ++ [(k, us)]) = W ++ [(k, us ++ vs)]
  | [], W, k, us, _ => by simp
  | v :: vs, W, k, us, h => by
      simp only [List.foldl_cons]
      rw [qAdd_last W k us v h, foldl_qAdd_vals vs W k (us ++ [v]) h]
      simp

/-- Sortedness (strictly increasing keys) of the canonical `url.Values`. -/
def qSortedB : QVals → Bool
  | [] => true
  | [_] => true
  | p :: q :: rest => ltChars p.1 q.1 ∧ qSortedB (q :: rest)

theorem qSortedB_cons (p : List Char × List (List Char)) (m : QVals)
    (h : qSortedB (p :: m)) : qSortedB m := by
  cases m with
  | nil => rfl
  | cons q rest =>
      simp only [qSortedB, decide_eq_true_eq] at h
      exact h.2

theorem qSortedB_head_lt (p : List Char × List (List Char)) :
    ∀ (m : QVals), qSortedB (p :: m) → ∀ q ∈ m, ltChars p.1 q.1 = true
  | [], _, q, hq => by simp at hq
  | r :: rest, h, q, hq => by
      have h1 : ltChars p.1 r.1 = true := by
        simp only [qSortedB, decide_eq_true_eq] at h
        exact h.1
      rcases List.mem_cons.mp hq with rfl | hq2
      · exact h1
      · have h2 := qSortedB_head_lt r rest (qSortedB_cons p (r :: rest) h) q hq2
        exact ltChars_trans _ _ _ h1 h2

/-- Rebuilding a sorted map by folding `Add` over its groups, group by
group. -/
theorem foldl_qAdd_groups : ∀ (m W : QVals),
    (∀ p ∈ W, ∀ q ∈ m, ltChars p.1 q.1 = true) → qSortedB m →
    (∀ p ∈ m, p.2 ≠ []) →
    m.foldl (fun acc p => p.2.foldl (fun a v => qAdd a p.1 v) acc) W = W ++ m
  | [], W, _, _, _ => by simp
  | (k, vs) :: m, W, hWm, hm, hne => by
      obtain ⟨v, vs2, rfl⟩ := List.exists_cons_of_ne_nil (hne (k, vs) (by simp))
      simp only [List.foldl_cons]
      have hWk : ∀ p ∈ W, ltChars p.1 k = true := fun p hp => hWm p hp (k, v :: vs2) (by simp)
      rw [qAdd_gt W k v hWk, foldl_qAdd_vals vs2 W k [v] hWk]
      rw [foldl_qAdd_groups m (W ++ [(k, [v] ++ vs2)]) (by
        intro p hp q hq
        rcases List.mem_append.mp hp with h1 | h1
        · exact ltChars_trans _ _ _ (hWm p h1 (k, v :: vs2) (by simp))
            (qSortedB_head_lt (k, v :: vs2) m hm q hq)
        · rcases List.mem_singleton.mp h1 with rfl
          exact qSortedB_head_lt (k, v :: vs2) m hm q hq)
        (qSortedB_cons _ _ hm) (fun p hp => hne p (by simp [hp]))]
      simp

/-! ## `Values.Add` preserves sortedness; `parseQuery` output is sorted -/

theorem qAdd_head : ∀ (m : QVals) (k v : List Char),
    ∃ p rest2, qAdd m k v = p :: rest2 ∧
      (p.1 = k ∨ ∃ q qr, m = q :: qr ∧ p.1 = q.1)
  | [], k, v => ⟨(k, [v]), [], rfl, Or.inl rfl⟩
  | (k2, vs) :: rest, k, v => by
      by_cases h1 : k = k2
      · exact ⟨(k2, vs ++ [v]), rest, by simp [qAdd, h1], Or.inr ⟨(k2, vs), rest, rfl, rfl⟩⟩
      · by_cases h2 : ltChars k k2 = true
        · exact ⟨(k, [v]), (k2, vs) :: rest, by simp [qAdd, h1, h2], Or.inl rfl⟩
        · exact ⟨(k2, vs), qAdd rest k v, by simp [qAdd, h1, h2],
            Or.inr ⟨(k2, vs), rest, rfl, rfl⟩⟩

theorem qSortedB_cons_of (p q : List Char × List (List Char)) (rest : QVals)
    (h1 : ltChars p.1 q.1 = true) (h2 : qSortedB (q :: rest) = true) :
    qSortedB (p :: q :: rest) = true := by
  simp [qSortedB, h1, h2]

theorem qAdd_sorted : ∀ (m : QVals) (k v : List Char),
    qSortedB m = true → qSortedB (qAdd m k v) = true
  | [], _, _, _ => rfl
  | (k2, vs) :: rest, k, v, h => by
      by_cases h1 : k = k2
      · rw [show qAdd ((k2, vs) :: rest) k v = (k2, vs ++ [v]) :: rest by simp [qAdd, h1]]
        cases rest with
        | nil => rfl
        | cons r rest2 => exact h
      · by_cases h2 : ltChars k k2 = true
        · rw [show qAdd ((k2, vs) :: rest) k v = (k, [v]) :: (k2, vs) :: rest by
            simp [qAdd, h1, h2]]
          exact qSortedB_cons_of _ _ _ h2 h
        · rw [show qAdd ((k2, vs) :: rest) k v = (k2, vs) :: qAdd rest k v by
            simp [qAdd, h1, h2]]
          have hs := qAdd_sorted rest k v (qSortedB_cons _ _ h)
          have hk2k : ltChars k2 k = true := by
            rcases ltChars_total k k2 with h3 | h3 | h3
            · exact absurd h3 h1
            · exact absurd h3 h2
            · exact h3
          obtain ⟨p, rest2, heq, hp⟩ := qAdd_head rest k v
          rw [heq]
          apply qSortedB_cons_of
          · rcases hp with hp | ⟨q, qr, hm, hp⟩
            · rw [hp]
              exact hk2k
            · rw [hp]
              exact qSortedB_head_lt (k2, vs) rest h q (by rw [hm]; simp)
          · rw [← heq]
            exact hs

theorem parseQuerySeg_sorted (m : QVals) (kv : List Char) (h : qSortedB m = true) :
    qSortedB (parseQuerySeg m kv) = true := by
  unfold parseQuerySeg
  dsimp only
  split
  · exact h
  · split
    · exact h
    · split
      · exact h
      · split
        · exact h
        · exact qAdd_sorted _ _ _ h

theorem parseQueryGo_sorted : ∀ (fuel : Nat) (m : QVals) (q : List Char),
    qSortedB m = true → qSortedB (parseQueryGo fuel m q) = true
  | 0, m, _, h => h
  | fuel + 1, m, q, h => by
      simp only [parseQueryGo]
      split
      · exact h
      · exact parseQueryGo_sorted fuel _ _ (parseQuerySeg_sorted m _ h)

theorem parseQuery_sorted (q : List Char) : qSortedB (parseQuery q) = true :=
  parseQueryGo_sorted _ _ _ rfl

/-- Non-emptiness of every value list. -/
def qvalsNE (m : QVals) : Bool := m.all fun p => ¬ (p.2 = [])

theorem qAdd_ne : ∀ (m : QVals) (k v : List Char),
    qvalsNE m = true → qvalsNE (qAdd m k v) = true
  | [], _, _, _ => by simp [qAdd, qvalsNE]
  | (k2, vs) :: rest, k, v, h => by
      simp only [qvalsNE, List.all_cons, Bool.and_eq_true] at h
      by_cases h1 : k = k2
      · rw [show qAdd ((k2, vs) :: rest) k v = (k2, vs ++ [v]) :: rest by simp [qAdd, h1]]
        simp only [qvalsNE, List.all_cons, Bool.and_eq_true]
        exact ⟨by simp, h.2⟩
      · by_cases h2 : ltChars k k2 = true
        · rw [show qAdd ((k2, vs) :: rest) k v = (k, [v]) :: (k2, vs) :: rest by
            simp [qAdd, h1, h2]]
          simp only [qvalsNE, List.all_cons, Bool.and_eq_true]
          exact ⟨by simp, h.1, h.2⟩
        · rw [show qAdd ((k2, vs) :: rest) k v = (k2, vs) :: qAdd rest k v by
            simp [qAdd, h1, h2]]
          simp only [qvalsNE, List.all_cons, Bool.and_eq_true]
          exact ⟨h.1, qAdd_ne rest k v h.2⟩

theorem parseQuerySeg_ne (m : QVals) (kv : List Char) (h : qvalsNE m = true) :
    qvalsNE (parseQuerySeg m kv) = true := by
  unfold parseQuerySeg
  dsimp only
  split
  · exact h
  · split
    · exact h
    · split
      · exact h
      · split
        · exact h
        · exact qAdd_ne _ _ _ h

theorem parseQueryGo_ne : ∀ (fuel : Nat) (m : QVals) (q : List Char),
    qvalsNE m = true → qvalsNE (parseQueryGo fuel m q) = true
  | 0, m, _, h => h
  | fuel + 1, m, q, h => by
      simp only [parseQueryGo]
      split
      · exact h
      · exact parseQueryGo_ne fuel _ _ (parseQuerySeg_ne m _ h)

theorem parseQuery_ne (q : List Char) : qvalsNE (parseQuery q) = true :=
  parseQueryGo_ne _ _ _ rfl

/-! ## `ParseQuery (Values.Encode m) = m` on sorted, wellformed maps -/

theorem isUnreserved_spec (c : Char) (h : isUnreserved c = true) :
    c ≠ '%' ∧ c ≠ '+' ∧ c ≠ '&' ∧ c ≠ '=' ∧ c ≠ ';' := by
  refine ⟨?_, ?_, ?_, ?_, ?_⟩ <;>
    · intro he
      subst he
      exact absurd h (by decide)

theorem parseQuerySeg_eq (m : QVals) (k v : List Char)
    (hk : ∀ x ∈ k, isUnreserved x = true) (hv : ∀ x ∈ v, isUnreserved x = true) :
    parseQuerySeg m (k ++ '=' :: v) = qAdd m k v := by
  have hsemi : containsChar ';' (k ++ '=' :: v) = false := by
    apply containsChar_eq_false
    intro x hx
    rcases List.mem_append.mp hx with h1 | h1
    · exact (isUnreserved_spec x (hk x h1)).2.2.2.2
    · rcases List.mem_cons.mp h1 with rfl | h2
      · decide
      · exact (isUnreserved_spec x (hv x h2)).2.2.2.2
  unfold parseQuerySeg
  rw [if_neg (by rw [hsemi]; simp), if_neg (by simp)]
  rw [cutChar_found '=' k v (fun a ha => (isUnreserved_spec a (hk a ha)).2.2.2.1)]
  dsimp only
  rw [unescapeGo_id true k (fun x hx =>
    ⟨(isUnreserved_spec x (hk x hx)).1, (isUnreserved_spec x (hk x hx)).2.1⟩)]
  rw [unescapeGo_id true v (fun x hx =>
    ⟨(isUnreserved_spec x (hv x hx)).1, (isUnreserved_spec x (hv x hx)).2.1⟩)]

theorem parseQueryGo_nil : ∀ (fuel : Nat) (m : QVals), parseQueryGo fuel m [] = m
  | 0, _ => rfl
  | _ + 1, _ => by simp [parseQueryGo]

theorem parseQueryGo_join : ∀ (parts : List (List Char)) (m : QVals) (fuel : Nat),
    (∀ p ∈ parts, p ≠ [] ∧ ∀ x ∈ p, x ≠ '&') →
    (joinSep '&' parts).length ≤ fuel →
    parseQueryGo fuel m (joinSep '&' parts) = parts.foldl parseQuerySeg m
  | [], m, fuel, _, _ => by simp [joinSep, parseQueryGo_nil]
  | [p], m, fuel, h, hf => by
      have hp := h p (by simp)
      rw [show joinSep '&' [p] = p from rfl] at hf ⊢
      cases fuel with
      | zero => exact absurd (List.eq_nil_of_length_eq_zero (Nat.le_zero.mp hf)) hp.1
      | succ f =>
          simp only [parseQueryGo]
          rw [if_neg hp.1, cutChar_not_found '&' p hp.2]
          dsimp only
          rw [parseQueryGo_nil]
          rfl
  | p :: p2 :: parts, m, fuel, h, hf => by
      have hp := h p (by simp)
      rw [joinSep_cons_cons] at hf ⊢
      cases fuel with
      | zero =>
          exfalso
          rw [List.length_append, List.length_cons] at hf
          omega
      | succ f =>
          simp only [parseQueryGo]
          rw [if_neg (by simp), cutChar_found '&' p (joinSep '&' (p2 :: parts)) hp.2]
          dsimp only
          rw [parseQueryGo_join (p2 :: parts) (parseQuerySeg m p) f
            (fun q hq => h q (by simp [hq]))
            (by rw [List.length_append, List.length_cons] at hf; omega)]
          rfl

/-- All characters of a string are unreserved. -/
def unresStr (s : List Char) : Bool := s.all isUnreserved

/-- Every key and every value of the map consists of unreserved characters. -/
def qvalsWF (m : QVals) : Bool :=
  m.all fun p => unresStr p.1 && p.2.all unresStr

theorem parseQuery_qEncode (m : QVals) (hs : qSortedB m = true)
    (hw : qvalsWF m = true) (hne : qvalsNE m = true) :
    parseQuery (qEncode m) = m := by
  simp only [qvalsWF, List.all_eq_true, Bool.and_eq_true, unresStr] at hw
  simp only [qvalsNE, List.all_eq_true] at hne
  have hne2 : ∀ p ∈ m, p.2 ≠ [] := by
    intro p hp
    have := hne p hp
    simpa using this
  have henc : qEncode m = joinSep '&'
      ((m.map fun p => p.2.map fun x => p.1 ++ '=' :: x).flatten) := by
    unfold qEncode
    congr 1
    congr 1
    apply List.map_congr_left
    intro p hp
    have hpw := hw p hp
    apply List.map_congr_left
    intro x hx
    have hxw : ∀ a ∈ x, isUnreserved a = true := by
      have := hpw.2
      simp only [List.all_eq_true, unresStr] at this
      exact fun a ha => by
        have := this x hx
        simp only [List.all_eq_true] at this
        exact this a ha
    rw [queryEscape_id p.1 (by
      have := hpw.1
      simp only [List.all_eq_true] at this
      exact this)]
    rw [queryEscape_id x hxw]
  rw [henc]
  unfold parseQuery
  rw [parseQueryGo_join _ [] _ ?pcond le_rfl]
  case pcond =>
    intro q hq
    simp only [List.mem_flatten, List.mem_map] at hq
    obtain ⟨l, ⟨p, hpm, rfl⟩, hql⟩ := hq
    simp only [List.mem_map] at hql
    obtain ⟨x, hx, rfl⟩ := hql
    have hpw := hw p hpm
    have hkw : ∀ a ∈ p.1, isUnreserved a = true := by
      have := hpw.1
      simp only [List.all_eq_true] at this
      exact this
    have hxw : ∀ a ∈ x, isUnreserved a = true := by
      have := hpw.2
      simp only [List.all_eq_true, unresStr] at this
      exact fun a ha => by
        have := this x hx
        simp only [List.all_eq_true] at this
        exact this a ha
    refine ⟨by simp, ?_⟩
    intro a ha
    rcases List.mem_append.mp ha with h1 | h1
    · exact (isUnreserved_spec a (hkw a h1)).2.2.1
    · rcases List.mem_cons.mp h1 with rfl | h2
      · decide
      · exact (isUnreserved_spec a (hxw a h2)).2.2.1
  rw [List.foldl_flatten, List.foldl_map]
  have hstep : ∀ (a : QVals), ∀ p ∈ m,
      (p.2.map fun x => p.1 ++ '=' :: x).foldl parseQuerySeg a
        = p.2.foldl (fun acc v => qAdd acc p.1 v) a := by
    intro a p hp
    rw [List.foldl_map]
    apply List.foldl_ext
    intro b x hx
    have hpw := hw p hp
    apply parseQuerySeg_eq
    · have := hpw.1
      simp only [List.all_eq_true] at this
      exact this
    · have := hpw.2
      simp only [List.all_eq_true, unresStr] at this
      exact fun a ha => by
        have := this x hx
        simp only [List.all_eq_true] at this
        exact this a ha
  rw [List.foldl_ext _ _ [] hstep]
  rw [foldl_qAdd_groups m [] (by simp) hs hne2]
  simp

/-! ## Parser inversion: wellformed URLs survive `String` then
`ParseRequestURI` unchanged -/

/-- Characters legal after the first character of a scheme (lower-case only,
so that `ToLower` is the identity). -/
def schemeCharOK (c : Char) : Bool :=
  ('a' ≤ c ∧ c ≤ 'z') ∨ isDigit c ∨ c = '+' ∨ c = '-' ∨ c = '.'

/-- Host characters in the model's wellformed subset. -/
def hostCharOK (c : Char) : Bool := isAlphaNum c ∨ c = '.' ∨ c = '-'

/-- Raw-query characters in the model's wellformed subset: what
`Values.Encode` emits from unreserved keys and values. -/
def queryCharOK (c : Char) : Bool := isUnreserved c ∨ c = '=' ∨ c = '&'

def schemeWF : List Char → Bool
  | [] => false
  | c :: rest => decide ('a' ≤ c) && decide (c ≤ 'z') && rest.all schemeCharOK

/-- The wellformedness under which serialization and re-parsing are inverse. -/
def urlWF (u : URL) : Bool :=
  schemeWF u.scheme && decide (¬ u.host = []) && u.host.all hostCharOK &&
  (decide (u.path = []) || decide (u.path.headD ' ' = '/')) &&
  u.path.all pathKeepChar && u.rawQuery.all queryCharOK &&
  decide (u.opq = []) && decide (u.forceQuery = false) &&
  decide (u.omitHost = false) && decide (u.userinfo = none)

theorem urlWF_spec (u : URL) (h : urlWF u = true) :
    schemeWF u.scheme = true ∧ u.host ≠ [] ∧ (∀ x ∈ u.host, hostCharOK x = true) ∧
    (u.path = [] ∨ ∃ pt, u.path = '/' :: pt) ∧
    (∀ x ∈ u.path, pathKeepChar x = true) ∧
    (∀ x ∈ u.rawQuery, queryCharOK x = true) ∧
    u.opq = [] ∧ u.forceQuery = false ∧ u.omitHost = false ∧
    u.userinfo = none := by
  simp only [urlWF, Bool.and_eq_true, Bool.or_eq_true, decide_eq_true_eq,
    List.all_eq_true] at h
  obtain ⟨⟨⟨⟨⟨⟨⟨⟨⟨h1, h2⟩, h3⟩, h4⟩, h5⟩, h6⟩, h7⟩, h8⟩, h9⟩, h10⟩ := h
  refine ⟨h1, h2, h3, ?_, h5, h6, h7, h8, h9, h10⟩
  rcases h4 with h4 | h4
  · exact Or.inl h4
  · cases hp : u.path with
    | nil => exact Or.inl rfl
    | cons a t =>
        rw [hp] at h4
        simp only [List.headD_cons] at h4
        exact Or.inr ⟨t, by rw [h4]⟩

theorem schemeWF_spec : ∀ (s : List Char), schemeWF s = true →
    ∃ c rest, s = c :: rest ∧ ('a' ≤ c ∧ c ≤ 'z') ∧
      ∀ x ∈ rest, schemeCharOK x = true
  | [], h => by simp [schemeWF] at h
  | c :: rest, h => by
      simp only [schemeWF, Bool.and_eq_true, decide_eq_true_eq,
        List.all_eq_true] at h
      exact ⟨c, rest, rfl, ⟨h.1.1, h.1.2⟩, h.2⟩

/-! ### Character-class facts -/

theorem isCtl_false_of (c : Char) (h1 : 32 ≤ c.toNat) (h2 : c.toNat ≠ 127) :
    isCtl c = false := by
  simp only [isCtl, decide_eq_false_iff_not]
  omega

theorem isAlphaNum_range (c : Char) (h : isAlphaNum c = true) :
    (48 ≤ c.toNat ∧ c.toNat ≤ 57) ∨ (65 ≤ c.toNat ∧ c.toNat ≤ 90) ∨
      (97 ≤ c.toNat ∧ c.toNat ≤ 122) := by
  simp only [isAlphaNum, decide_eq_true_eq] at h
  rcases h with h | h | h
  · have g1 : 97 ≤ c.toNat := h.1
    have g2 : c.toNat ≤ 122 := h.2
    omega
  · have g1 : 65 ≤ c.toNat := h.1
    have g2 : c.toNat ≤ 90 := h.2
    omega
  · have g1 : 48 ≤ c.toNat := h.1
    have g2 : c.toNat ≤ 57 := h.2
    omega

theorem isAlphaNum_ctl (c : Char) (h : isAlphaNum c = true) : isCtl c = false := by
  rcases isAlphaNum_range c h with h1 | h1 | h1 <;> exact isCtl_false_of c (by omega) (by omega)

theorem schemeCharOK_ctl (c : Char) (h : schemeCharOK c = true) : isCtl c = false := by
  simp only [schemeCharOK, decide_eq_true_eq] at h
  rcases h with h1 | h1 | rfl | rfl | rfl
  · have g1 : 97 ≤ c.toNat := h1.1
    have g2 : c.toNat ≤ 122 := h1.2
    exact isCtl_false_of c (by omega) (by omega)
  · simp only [isDigit, decide_eq_true_eq] at h1
    have g1 : 48 ≤ c.toNat := h1.1
    have g2 : c.toNat ≤ 57 := h1.2
    exact isCtl_false_of c (by omega) (by omega)
  · decide
  · decide
  · decide

theorem schemeCharOK_lower (c : Char) (h : schemeCharOK c = true) :
    ¬ (65 ≤ c.toNat ∧ c.toNat ≤ 90) := by
  simp only [schemeCharOK, decide_eq_true_eq] at h
  rcases h with h1 | h1 | rfl | rfl | rfl
  · have g1 : 97 ≤ c.toNat := h1.1
    omega
  · simp only [isDigit, decide_eq_true_eq] at h1
    have g2 : c.toNat ≤ 57 := h1.2
    omega
  · decide
  · decide
  · decide

theorem hostCharOK_ctl (c : Char) (h : hostCharOK c = true) : isCtl c = false := by
  simp only [hostCharOK, decide_eq_true_eq] at h
  rcases h with h1 | rfl | rfl
  · exact isAlphaNum_ctl c h1
  · decide
  · decide

theorem hostCharOK_ne (c : Char) (h : hostCharOK c = true) (d : Char)
    (hd : hostCharOK d = false) : c ≠ d := by
  intro he
  subst he
  rw [h] at hd
  cases hd

theorem hostCharOK_keep (c : Char) (h : hostCharOK c = true) :
    hostKeepChar c = true := by
  simp only [hostCharOK, decide_eq_true_eq] at h
  simp only [hostKeepChar, decide_eq_true_eq]
  rcases h with h1 | rfl | rfl
  · exact Or.inl h1
  · exact Or.inr (Or.inr (Or.inr (Or.inl rfl)))
  · exact Or.inr (Or.inl rfl)

theorem pathKeepChar_ctl (c : Char) (h : pathKeepChar c = true) : isCtl c = false := by
  simp only [pathKeepChar, decide_eq_true_eq] at h
  rcases h with h1 | rfl | rfl | rfl | rfl | rfl | rfl | rfl | rfl | rfl | rfl | rfl | rfl | rfl
  · exact isAlphaNum_ctl c h1
  all_goals decide

theorem pathKeepChar_ne (c : Char) (h : pathKeepChar c = true) (d : Char)
    (hd : pathKeepChar d = false) : c ≠ d := by
  intro he
  subst he
  rw [h] at hd
  cases hd

theorem isUnreserved_ctl (c : Char) (h : isUnreserved c = true) : isCtl c = false := by
  simp only [isUnreserved, decide_eq_true_eq] at h
  rcases h with h1 | rfl | rfl | rfl | rfl
  · exact isAlphaNum_ctl c h1
  all_goals decide

theorem queryCharOK_ctl (c : Char) (h : queryCharOK c = true) : isCtl c = false := by
  simp only [queryCharOK, decide_eq_true_eq] at h
  rcases h with h1 | rfl | rfl
  · exact isUnreserved_ctl c h1
  · decide
  · decide

theorem queryCharOK_ne (c : Char) (h : queryCharOK c = true) (d : Char)
    (hd : queryCharOK d = false) : c ≠ d := by
  intro he
  subst he
  rw [h] at hd
  cases hd

/-! ### Scheme extraction and lower-casing -/

theorem getSchemeAux_go : ∀ (sch acc rest : List Char), acc ≠ [] →
    (∀ x ∈ sch, schemeCharOK x = true) →
    getSchemeAux acc (sch ++ ':' :: rest) = .found (acc ++ sch) rest
  | [], acc, rest, hacc, _ => by
      simp only [List.nil_append, getSchemeAux, List.append_nil, if_true]
      rw [if_neg (by decide), if_neg (by decide), if_neg hacc]
  | c :: sch, acc, rest, hacc, hall => by
      have hc := hall c (by simp)
      simp only [schemeCharOK, decide_eq_true_eq] at hc
      have hrec := getSchemeAux_go sch (acc ++ [c]) rest (by simp)
        (fun x hx => hall x (by simp [hx]))
      simp only [List.cons_append, getSchemeAux, List.append_eq]
      by_cases h1 : isAlpha c = true
      · rw [if_pos h1, hrec]
        simp
      · have h2 : isDigit c = true ∨ c = '+' ∨ c = '-' ∨ c = '.' := by
          rcases hc with hc | hc | hc | hc | hc
          · exact absurd (by simp only [isAlpha, decide_eq_true_eq]; exact Or.inl hc) h1
          · exact Or.inl hc
          · exact Or.inr (Or.inl hc)
          · exact Or.inr (Or.inr (Or.inl hc))
          · exact Or.inr (Or.inr (Or.inr hc))
        rw [if_neg h1, if_pos h2, if_neg hacc, hrec]
        simp

theorem getSchemeGo_found (c : Char) (sch rest : List Char)
    (hc : isAlpha c = true) (hs : ∀ x ∈ sch, schemeCharOK x = true) :
    getSchemeGo ((c :: sch) ++ ':' :: rest) = some (c :: sch, rest) := by
  have h0 : getSchemeAux [] ((c :: sch) ++ ':' :: rest) = .found (c :: sch) rest := by
    rw [List.cons_append]
    simp only [getSchemeAux]
    rw [if_pos hc]
    rw [getSchemeAux_go sch ([] ++ [c]) rest (by simp) hs]
    simp
  unfold getSchemeGo
  rw [h0]

theorem asciiLower_id (c : Char) (h : ¬ (65 ≤ c.toNat ∧ c.toNat ≤ 90)) :
    asciiLower c = c := by
  unfold asciiLower
  rw [if_neg]
  intro hp
  obtain ⟨h1, h2⟩ := hp
  exact h ⟨h1, h2⟩

theorem map_asciiLower_id (s : List Char)
    (h : ∀ x ∈ s, ¬ (65 ≤ x.toNat ∧ x.toNat ≤ 90)) : s.map asciiLower = s := by
  induction s with
  | nil => rfl
  | cons a t ih =>
      rw [List.map_cons, asciiLower_id a (h a (by simp)),
        ih (fun x hx => h x (by simp [hx]))]

/-! ### The query cut -/

theorem getLast?_ne (c : Char) : ∀ (l : List Char),
    (∀ x ∈ l, x ≠ c) → l.getLast? ≠ some c
  | [], _ => by simp
  | [a], h => by
      simp only [List.getLast?_singleton, ne_eq, Option.some.injEq]
      exact h a (by simp)
  | a :: b :: t, h => by
      rw [List.getLast?_cons_cons]
      exact getLast?_ne c (b :: t) (fun x hx => h x (by simp [List.mem_cons] at hx ⊢; tauto))

theorem getLast?_append_cons : ∀ (l : List Char) (c : Char) (t : List Char),
    (l ++ c :: t).getLast? = (c :: t).getLast?
  | [], _, _ => rfl
  | a :: l, c, t => by
      rw [List.cons_append]
      cases hl : l ++ c :: t with
      | nil => exact absurd hl (by simp)
      | cons b t2 =>
          rw [List.getLast?_cons_cons, ← hl, getLast?_append_cons l c t]

/-! ### Host parsing and percent-decoding -/

theorem unescapeGo_id_false : ∀ (s : List Char), (∀ x ∈ s, x ≠ '%') →
    unescapeGo false s = some s
  | [], _ => rfl
  | c :: rest, h => by
      rw [unescapeGo_cons_ne false c rest (h c (by simp)),
        unescapeGo_id_false rest (fun x hx => h x (by simp [hx]))]
      simp

theorem unescapeHost_cons_ne (c : Char) (rest : List Char) (hc : c ≠ '%')
    (hk : hostKeepChar c = true) :
    unescapeHost (c :: rest) =
      (unescapeHost rest).bind fun tl => some (c :: tl) := by
  conv_lhs => unfold unescapeHost
  split
  · rename_i heq
    rw [List.cons.injEq] at heq
    exact absurd heq.1 hc
  · rename_i heq
    rw [List.cons.injEq] at heq
    exact absurd heq.1 hc
  · rename_i heq
    rw [List.cons.injEq] at heq
    obtain ⟨rfl, rfl⟩ := heq
    rw [if_neg (by
      intro hcc
      rw [hk] at hcc
      exact hcc.2 rfl)]
    rfl
  · rename_i heq
    exact absurd heq (by simp)

theorem unescapeHost_id : ∀ (s : List Char),
    (∀ x ∈ s, x ≠ '%' ∧ hostKeepChar x = true) → unescapeHost s = some s
  | [], _ => rfl
  | c :: rest, h => by
      rw [unescapeHost_cons_ne c rest (h c (by simp)).1 (h c (by simp)).2,
        unescapeHost_id rest (fun x hx => h x (by simp [hx]))]
      rfl

theorem lastSplitChar_none (c : Char) (s : List Char)
    (h : ∀ x ∈ s, x ≠ c) : lastSplitChar c s = none := by
  unfold lastSplitChar
  rw [cutChar_not_found c s.reverse (fun x hx => h x (List.mem_reverse.mp hx))]
  simp

theorem parseHostGo_id (host : List Char) (hne : host ≠ [])
    (h : ∀ x ∈ host, hostCharOK x = true) : parseHostGo host = some host := by
  obtain ⟨h0, t, rfl⟩ := List.exists_cons_of_ne_nil hne
  have hbr : goHasPrefix (h0 :: t) ['['] = false := by
    have hb0 : ('[' : Char) ≠ h0 :=
      Ne.symm (hostCharOK_ne h0 (h h0 (by simp)) '[' (by decide))
    simp [goHasPrefix, List.isPrefixOf, hb0]
  unfold parseHostGo
  rw [if_neg (by rw [hbr]; simp)]
  rw [lastSplitChar_none ':' (h0 :: t)
    (fun x hx => hostCharOK_ne x (h x hx) ':' (by decide))]
  exact unescapeHost_id _
    (fun x hx => ⟨hostCharOK_ne x (h x hx) '%' (by decide),
      hostCharOK_keep x (h x hx)⟩)

theorem parseAuthorityGo_id (host : List Char) (hne : host ≠ [])
    (h : ∀ x ∈ host, hostCharOK x = true) :
    parseAuthorityGo host = some (none, host) := by
  unfold parseAuthorityGo
  rw [lastSplitChar_none '@' host
    (fun x hx => hostCharOK_ne x (h x hx) '@' (by decide))]
  rw [parseHostGo_id host hne h]

/-! ### Serialization shape and the round trip through the parser -/

theorem urlString_wf (u : URL) (h : urlWF u = true) :
    urlString u = u.scheme ++ ':' :: '/' :: '/' ::
      (u.host ++ u.path ++ (if u.rawQuery = [] then [] else '?' :: u.rawQuery)) := by
  obtain ⟨hsch, hhost, hhostc, hpath, hpathc, hq, hopq, hfq, homit, huser⟩ := urlWF_spec u h
  have hschne : u.scheme ≠ [] := by
    intro he
    rw [he] at hsch
    exact absurd hsch (by decide)
  have hH : escapeWith hostKeepChar u.host = u.host :=
    escapeWith_id _ _ (fun x hx => hostCharOK_keep x (hhostc x hx))
  have hP : escapedPath u = u.path := escapeWith_id _ _ hpathc
  have hslash : ¬ (escapedPath u ≠ [] ∧ (escapedPath u).headD ' ' ≠ '/' ∧ u.host ≠ []) := by
    rw [hP]
    rcases hpath with hp0 | ⟨pt, hp⟩
    · rw [hp0]
      intro hc
      exact hc.1 rfl
    · rw [hp]
      intro hc
      exact hc.2.1 (by simp)
  unfold urlString
  dsimp only
  rw [if_pos hschne]
  rw [if_neg (by simp [hopq])]
  rw [if_pos (Or.inl hschne)]
  rw [if_neg (by simp [homit])]
  rw [if_pos (Or.inl hhost)]
  rw [if_neg hslash]
  rw [if_neg (by simp)]
  rw [hfq, hH, hP]
  by_cases hrq : u.rawQuery = []
  · rw [if_neg (by simp [hrq]), if_pos hrq]
    simp [huser]
  · rw [if_pos (Or.inr hrq), if_neg hrq]
    simp [huser]

theorem cutq_parts (core rq : List Char) (hcore : ∀ x ∈ core, x ≠ '?') :
    (cutChar '?' (core ++ (if rq = [] then [] else '?' :: rq))).1 = core ∧
    (cutChar '?' (core ++ (if rq = [] then [] else '?' :: rq))).2.1 = rq := by
  by_cases hrq : rq = []
  · rw [if_pos hrq, List.append_nil, cutChar_not_found '?' core hcore]
    exact ⟨rfl, hrq.symm⟩
  · rw [if_neg hrq, cutChar_found '?' core rq hcore]
    exact ⟨rfl, rfl⟩

theorem cutq_cond_false (core rq : List Char) (hcore : ∀ x ∈ core, x ≠ '?')
    (hq : ∀ x ∈ rq, queryCharOK x = true) :
    ¬ ((core ++ (if rq = [] then [] else '?' :: rq)).getLast? = some '?' ∧
        ¬ containsChar '?' (core ++ (if rq = [] then [] else '?' :: rq)).dropLast = true) := by
  intro hcond
  by_cases hrq : rq = []
  · rw [if_pos hrq, List.append_nil] at hcond
    exact getLast?_ne '?' core hcore hcond.1
  · rw [if_neg hrq, getLast?_append_cons] at hcond
    obtain ⟨q0, qt, rfl⟩ := List.exists_cons_of_ne_nil hrq
    rw [List.getLast?_cons_cons] at hcond
    exact getLast?_ne '?' (q0 :: qt)
      (fun x hx => queryCharOK_ne x (hq x hx) '?' (by decide)) hcond.1

theorem parseRequestURI_urlString (u : URL) (h : urlWF u = true) :
    parseRequestURI (urlString u) = some u := by
  rw [urlString_wf u h]
  obtain ⟨usc, uop, uui, uho, upa, urq, ufq, uom⟩ := u
  obtain ⟨hsch, hhost, hhostc, hpath, hpathc, hq, hopq, hfq, homit, huser⟩ :=
    urlWF_spec ⟨usc, uop, uui, uho, upa, urq, ufq, uom⟩ h
  dsimp only at hsch hhost hhostc hpath hpathc hq hopq hfq homit huser ⊢
  subst hopq hfq homit huser
  obtain ⟨c0, sch, hscheq, hc0, hschc⟩ := schemeWF_spec usc hsch
  subst hscheq
  rw [show (c0 :: sch) ++ ':' :: '/' :: '/' ::
        (uho ++ upa ++ (if urq = [] then [] else '?' :: urq)) =
      (c0 :: sch) ++ ':' :: (('/' :: '/' :: (uho ++ upa)) ++
        (if urq = [] then [] else '?' :: urq)) from by simp]
  have hcore_noq : ∀ x ∈ ('/' :: '/' :: (uho ++ upa)), x ≠ '?' := by
    intro x hx
    rcases List.mem_cons.mp hx with rfl | hx
    · decide
    rcases List.mem_cons.mp hx with rfl | hx
    · decide
    rcases List.mem_append.mp hx with hx | hx
    · exact hostCharOK_ne x (hhostc x hx) '?' (by decide)
    · exact pathKeepChar_ne x (hpathc x hx) '?' (by decide)
  have hctl : ∀ x ∈ ((c0 :: sch) ++ ':' :: (('/' :: '/' :: (uho ++ upa)) ++
      (if urq = [] then [] else '?' :: urq))), isCtl x = false := by
    intro x hx
    rcases List.mem_append.mp hx with hx | hx
    · rcases List.mem_cons.mp hx with rfl | hx
      · have g1 : 97 ≤ x.toNat := hc0.1
        have g2 : x.toNat ≤ 122 := hc0.2
        exact isCtl_false_of x (by omega) (by omega)
      · exact schemeCharOK_ctl x (hschc x hx)
    rcases List.mem_cons.mp hx with rfl | hx
    · decide
    rcases List.mem_append.mp hx with hx | hx
    · rcases List.mem_cons.mp hx with rfl | hx
      · decide
      rcases List.mem_cons.mp hx with rfl | hx
      · decide
      rcases List.mem_append.mp hx with hx | hx
      · exact hostCharOK_ctl x (hhostc x hx)
      · exact pathKeepChar_ctl x (hpathc x hx)
    · split at hx
      · simp at hx
      · rcases List.mem_cons.mp hx with rfl | hx
        · decide
        · exact queryCharOK_ctl x (hq x hx)
  have hanyctl : ((c0 :: sch) ++ ':' :: (('/' :: '/' :: (uho ++ upa)) ++
      (if urq = [] then [] else '?' :: urq))).any isCtl = false :=
    List.any_eq_false.mpr (fun x hx => by rw [hctl x hx]; simp)
  unfold parseRequestURI
  rw [if_neg (by rw [hanyctl]; simp)]
  rw [getSchemeGo_found c0 sch _
    (by simp only [isAlpha, decide_eq_true_eq]; exact Or.inl hc0) hschc]
  dsimp only
  have hlower : (c0 :: sch).map asciiLower = c0 :: sch := by
    apply map_asciiLower_id
    intro x hx
    rcases List.mem_cons.mp hx with rfl | hx
    · have g1 : 97 ≤ x.toNat := hc0.1
      omega
    · exact schemeCharOK_lower x (hschc x hx)
  rw [hlower]
  rw [if_neg (cutq_cond_false ('/' :: '/' :: (uho ++ upa)) urq hcore_noq hq)]
  dsimp only
  rw [(cutq_parts ('/' :: '/' :: (uho ++ upa)) urq hcore_noq).1,
    (cutq_parts ('/' :: '/' :: (uho ++ upa)) urq hcore_noq).2]

  have hpre : goHasPrefix ('/' :: '/' :: (uho ++ upa)) ['/'] = true := by
    simp [goHasPrefix, List.isPrefixOf]
  have hpre2 : goHasPrefix ('/' :: '/' :: (uho ++ upa)) ['/', '/'] = true := by
    simp [goHasPrefix, List.isPrefixOf]
  rw [if_neg (by rw [hpre]; simp), if_pos ⟨by simp, hpre2⟩]
  rw [show List.drop 2 ('/' :: '/' :: (uho ++ upa)) = uho ++ upa from rfl]
  rcases hpath with hp0 | ⟨pt, hp⟩
  · subst hp0
    rw [List.append_nil,
      cutChar_not_found '/' uho (fun x hx => hostCharOK_ne x (hhostc x hx) '/' (by decide))]
    dsimp only
    rw [if_neg (by simp), if_neg (by simp)]
    rw [parseAuthorityGo_id uho hhost hhostc]
    dsimp only
    rw [show unescapeGo false [] = some ([] : List Char) from rfl]
  · subst hp
    rw [cutChar_found '/' uho pt (fun x hx => hostCharOK_ne x (hhostc x hx) '/' (by decide))]
    dsimp only
    rw [if_pos rfl, if_pos rfl]
    rw [parseAuthorityGo_id uho hhost hhostc]
    dsimp only
    rw [unescapeGo_id_false ('/' :: pt) (by
      intro x hx
      rcases List.mem_cons.mp hx with rfl | hx
      · decide
      · exact pathKeepChar_ne x (hpathc x (by simp [hx])) '%' (by decide))]

/-! ## Character classes of encoder and signature output -/

theorem digitChar_mem (n : Nat) : digitChar n ∈ digitsAlphabet := by
  unfold digitChar
  by_cases h : n < digitsAlphabet.length
  · rw [List.getD_eq_getElem _ _ h]
    exact List.getElem_mem _
  · rw [List.getD_eq_default _ _ (by omega)]
    decide

theorem flickrChar_mem (n : Nat) : flickrChar n ∈ flickrAlphabet := by
  unfold flickrChar
  by_cases h : n < flickrAlphabet.length
  · rw [List.getD_eq_getElem _ _ h]
    exact List.getElem_mem _
  · rw [List.getD_eq_default _ _ (by omega)]
    decide

theorem encode_mem (e : IntEnc) (x : Int) (h0 : 0 ≤ x) :
    ∀ c ∈ e.Encode x, c ∈ digitsAlphabet ∨ c ∈ flickrAlphabet := by
  intro c hc
  cases e with
  | std b =>
      simp only [IntEnc.Encode, stdIntEncoding.Encode, formatInt,
        if_neg (by omega : ¬ x < 0), formatUint] at hc
      split at hc
      · left
        simp only [List.mem_singleton] at hc
        subst hc
        decide
      · simp only [List.mem_map] at hc
        obtain ⟨d, _, rfl⟩ := hc
        exact Or.inl (digitChar_mem d)
  | b58 =>
      simp only [IntEnc.Encode, base58Encoding.Encode, base58EncodeUint64] at hc
      split at hc
      · right
        simp only [List.mem_singleton] at hc
        subst hc
        decide
      · simp only [List.mem_map] at hc
        obtain ⟨d, _, rfl⟩ := hc
        exact Or.inr (flickrChar_mem d)

theorem alphabet_unres (c : Char) (h : c ∈ digitsAlphabet ∨ c ∈ flickrAlphabet) :
    isUnreserved c = true ∧ c ≠ '.' ∧ c ≠ '/' := by
  have hd : digitsAlphabet.all
      (fun c => isUnreserved c && decide (¬ c = '.') && decide (¬ c = '/')) = true := by decide
  have hf : flickrAlphabet.all
      (fun c => isUnreserved c && decide (¬ c = '.') && decide (¬ c = '/')) = true := by decide
  rcases h with h | h
  · have := List.all_eq_true.mp hd c h
    simp only [Bool.and_eq_true, decide_eq_true_eq] at this
    exact ⟨this.1.1, this.1.2, this.2⟩
  · have := List.all_eq_true.mp hf c h
    simp only [Bool.and_eq_true, decide_eq_true_eq] at this
    exact ⟨this.1.1, this.1.2, this.2⟩

theorem encode_unres (e : IntEnc) (x : Int) (h0 : 0 ≤ x) :
    ∀ c ∈ e.Encode x, isUnreserved c = true :=
  fun c hc => (alphabet_unres c (encode_mem e x h0 c hc)).1

theorem natDigits_ne_nil (b n : Nat) (hb : 2 ≤ b) (hn : n ≠ 0) :
    natDigits b n ≠ [] := by
  rw [natDigits_eq b n hb]
  exact Nat.digits_ne_nil_iff_ne_zero.mpr hn

theorem encode_ne_nil (e : IntEnc) (x : Int) (h0 : 0 ≤ x)
    (hb : ∀ b, e = .std b → 2 ≤ b) : e.Encode x ≠ [] := by
  cases e with
  | std b =>
      simp only [IntEnc.Encode, stdIntEncoding.Encode, formatInt,
        if_neg (by omega : ¬ x < 0), formatUint]
      split
      · simp
      · next h =>
          simp only [ne_eq, List.map_eq_nil_iff, List.reverse_eq_nil_iff]
          exact natDigits_ne_nil b _ (hb b rfl) h
  | b58 =>
      simp only [IntEnc.Encode, base58Encoding.Encode, base58EncodeUint64]
      split
      · simp
      · next h =>
          simp only [ne_eq, List.map_eq_nil_iff, List.reverse_eq_nil_iff]
          exact natDigits_ne_nil 58 _ (by norm_num) h

theorem isUnreserved_pathKeep (c : Char) (h : isUnreserved c = true) :
    pathKeepChar c = true := by
  simp only [isUnreserved, decide_eq_true_eq] at h
  simp only [pathKeepChar, decide_eq_true_eq]
  rcases h with h | rfl | rfl | rfl | rfl
  · exact Or.inl h
  · exact Or.inr (Or.inl rfl)
  · exact Or.inr (Or.inr (Or.inl rfl))
  · exact Or.inr (Or.inr (Or.inr (Or.inl rfl)))
  · exact Or.inr (Or.inr (Or.inr (Or.inr (Or.inl rfl))))

/-! ## `Values.Add` preserves key/value wellformedness; characters of
`Values.Encode` output -/

theorem qAdd_wf : ∀ (m : QVals) (k v : List Char), qvalsWF m = true →
    unresStr k = true → unresStr v = true → qvalsWF (qAdd m k v) = true
  | [], k, v, _, hk, hv => by
      simp [qAdd, qvalsWF, hk, hv]
  | (k2, vs) :: rest, k, v, h, hk, hv => by
      simp only [qvalsWF, List.all_cons, Bool.and_eq_true] at h
      by_cases h1 : k = k2
      · rw [show qAdd ((k2, vs) :: rest) k v = (k2, vs ++ [v]) :: rest by simp [qAdd, h1]]
        simp only [qvalsWF, List.all_cons, Bool.and_eq_true]
        refine ⟨⟨h.1.1, ?_⟩, h.2⟩
        simp only [List.all_append, Bool.and_eq_true]
        exact ⟨h.1.2, by simp [hv]⟩
      · by_cases h2 : ltChars k k2 = true
        · rw [show qAdd ((k2, vs) :: rest) k v = (k, [v]) :: (k2, vs) :: rest by
            simp [qAdd, h1, h2]]
          simp only [qvalsWF, List.all_cons, Bool.and_eq_true]
          exact ⟨⟨hk, by simp [hv]⟩, h.1, h.2⟩
        · rw [show qAdd ((k2, vs) :: rest) k v = (k2, vs) :: qAdd rest k v by
            simp [qAdd, h1, h2]]
          simp only [qvalsWF, List.all_cons, Bool.and_eq_true]
          exact ⟨h.1, qAdd_wf rest k v h.2 hk hv⟩

theorem mem_joinSep : ∀ (c : Char) (parts : List (List Char)) (x : Char),
    x ∈ joinSep c parts → x = c ∨ ∃ p ∈ parts, x ∈ p
  | c, [], x, hx => by simp [joinSep] at hx
  | c, [p], x, hx => by
      simp only [joinSep] at hx
      exact Or.inr ⟨p, by simp, hx⟩
  | c, p :: p2 :: parts, x, hx => by
      rw [joinSep_cons_cons] at hx
      rcases List.mem_append.mp hx with hx | hx
      · exact Or.inr ⟨p, by simp, hx⟩
      · rcases List.mem_cons.mp hx with rfl | hx
        · exact Or.inl rfl
        · rcases mem_joinSep c (p2 :: parts) x hx with h | ⟨q, hq, hxq⟩
          · exact Or.inl h
          · exact Or.inr ⟨q, by simp [List.mem_cons.mp hq], hxq⟩

theorem qEncode_chars (m : QVals) (hw : qvalsWF m = true) :
    ∀ x ∈ qEncode m, queryCharOK x = true := by
  intro x hx
  simp only [qvalsWF, List.all_eq_true, Bool.and_eq_true, unresStr] at hw
  rcases mem_joinSep '&' _ x hx with rfl | ⟨p, hp, hxp⟩
  · simp [queryCharOK]
  · simp only [List.mem_flatten, List.mem_map] at hp
    obtain ⟨l, ⟨q, hq, rfl⟩, hpl⟩ := hp
    simp only [List.mem_map] at hpl
    obtain ⟨v, hv, rfl⟩ := hpl
    have hqw := hw q hq
    have hkw : ∀ a ∈ q.1, isUnreserved a = true := by
      have := hqw.1
      simp only [List.all_eq_true] at this
      exact this
    have hvw : ∀ a ∈ v, isUnreserved a = true := by
      have := hqw.2
      simp only [List.all_eq_true, unresStr] at this
      intro a ha
      have h2 := this v hv
      simp only [List.all_eq_true] at h2
      exact h2 a ha
    rw [queryEscape_id q.1 hkw, queryEscape_id v hvw] at hxp
    simp only [queryCharOK, decide_eq_true_eq]
    rcases List.mem_append.mp hxp with h1 | h1
    · exact Or.inl (hkw x h1)
    · rcases List.mem_cons.mp h1 with rfl | h1
      · exact Or.inr (Or.inl rfl)
      · exact Or.inl (hvw x h1)

/-! ## Prefix facts -/

theorem goHasPrefix_append (p x : List Char) : goHasPrefix (p ++ x) p = true := by
  simp only [goHasPrefix]
  exact List.isPrefixOf_iff_prefix.mpr (List.prefix_append p x)

theorem goHasPrefix_nil (x : List Char) : goHasPrefix x [] = true := by
  simp [goHasPrefix, List.isPrefixOf]

/-! ## Symbolic evaluation of `Sign` followed by `Verify` (query formatter) -/

/-- The encoded expiry `Sign` embeds. -/
def expiryStr (s : Signer) (L : Int) : List Char := s.enc.Encode (unixSec L)

/-- Prepending the path prefix, in every configuration the hypotheses allow,
is concatenation. -/
theorem joined_path (pfx p : List Char)
    (hpfx : pfx = [] ∨ rootedClean pfx = true)
    (hp : p = [] ∨ rootedClean p = true) :
    (if pfx ≠ [] then pathJoin pfx p else p) = pfx ++ p := by
  by_cases h1 : pfx = []
  · rw [if_neg (by simpa using h1), h1, List.nil_append]
  · rw [if_pos h1]
    have hpc := hpfx.resolve_left h1
    rcases hp with rfl | hp2
    · rw [List.append_nil]
      unfold pathJoin
      rw [if_neg (by simp [h1]), if_neg h1, if_pos rfl]
      exact pathClean_rootedClean pfx hpc
    · exact pathJoin_clean pfx p hpc hp2

/-- The path the path formatter builds is rooted and clean. -/
theorem rootedClean_signed (T E p : List Char)
    (hT : T ≠ []) (hTs : ∀ x ∈ T, x ≠ '/') (hTd : ∀ x ∈ T, x ≠ '.')
    (hEs : ∀ x ∈ E, x ≠ '/')
    (hp : rootedClean p = true) :
    rootedClean ('/' :: (T ++ '.' :: (E ++ p))) = true := by
  obtain ⟨pr, rfl, hsegs⟩ := rootedClean_shape p hp
  have hx : '/' ∉ (T ++ '.' :: E) := by
    intro hm
    rcases List.mem_append.mp hm with hm | hm
    · exact hTs _ hm rfl
    · rcases List.mem_cons.mp hm with he | hm
      · exact absurd he.symm (by decide)
      · exact hEs _ hm rfl
  show (splitOnChar '/' (T ++ '.' :: (E ++ '/' :: pr))).all segOK = true
  rw [show T ++ '.' :: (E ++ '/' :: pr) = (T ++ '.' :: E) ++ '/' :: pr by simp]
  rw [splitOnChar_append_sep '/' _ _ hx]
  rw [List.all_cons]
  simp only [Bool.and_eq_true]
  constructor
  · obtain ⟨t0, tt, rfl⟩ := List.exists_cons_of_ne_nil hT
    have ht0 : t0 ≠ '.' := hTd t0 (by simp)
    simp [segOK, ht0]
  · exact List.all_eq_true.mpr hsegs

/-! ## Generic `Verify` evaluation with an arbitrary signature component and
raw query (query formatter) -/

theorem recordQ_wf (s : Signer) (u : URL) (rq2 : List Char)
    (hu : urlWF u = true)
    (hpfx : s.pfx = [] ∨ (rootedClean s.pfx = true ∧ ∀ x ∈ s.pfx, pathKeepChar x = true))
    (hrq2 : ∀ x ∈ rq2, queryCharOK x = true) :
    urlWF
      { scheme := u.scheme, opq := u.opq, userinfo := u.userinfo, host := u.host,
        path := s.pfx ++ u.path, rawQuery := rq2,
        forceQuery := u.forceQuery, omitHost := u.omitHost } = true := by
  obtain ⟨hsch, hhost, hhostc, hpath, hpathc, hqc, hopq, hfq, homit, huser⟩ := urlWF_spec u hu
  simp only [urlWF, Bool.and_eq_true, Bool.or_eq_true, decide_eq_true_eq,
    List.all_eq_true]
  refine ⟨⟨⟨⟨⟨⟨⟨⟨⟨hsch, hhost⟩, hhostc⟩, ?_⟩, ?_⟩, hrq2⟩, hopq⟩, hfq⟩, homit⟩, huser⟩
  · rcases hpfx with hp0 | ⟨hpr, _⟩
    · rw [hp0, List.nil_append]
      rcases hpath with hp | ⟨pt, hp⟩
      · exact Or.inl hp
      · rw [hp]
        simp
    · obtain ⟨r, hr, -⟩ := rootedClean_shape s.pfx hpr
      rw [hr]
      simp
  · intro x hx
    rcases List.mem_append.mp hx with hx | hx
    · rcases hpfx with hp0 | ⟨-, hpc⟩
      · rw [hp0] at hx
        cases hx
      · exact hpc x hx
    · exact hpathc x hx

theorem verify_queryGeneric (s : Signer) (u : URL) (L now : Int) (T rq2 : List Char)
    (hfmt : s.fmt = .query)
    (henc : s.enc = .std 10 ∨ s.enc = .b58)
    (hu : urlWF u = true)
    (hpfx : s.pfx = [] ∨ (rootedClean s.pfx = true ∧ ∀ x ∈ s.pfx, pathKeepChar x = true))
    (hupath : u.path = [] ∨ rootedClean u.path = true)
    (hq0 : qvalsWF (parseQuery u.rawQuery) = true)
    (hf1 : qHasKey (parseQuery u.rawQuery) (str "expiry") = false)
    (hf2 : qHasKey (parseQuery u.rawQuery) (str "signature") = false)
    (hrq2 : ∀ x ∈ rq2, queryCharOK x = true)
    (hparse : parseQuery rq2 = qAdd (qAdd (parseQuery u.rawQuery) (str "expiry")
        (expiryStr s L)) (str "signature") T)
    (hTne : T ≠ [])
    (hL0 : 0 ≤ unixSec L) (hL1 : unixSec L < 2 ^ 63) :
    s.Verify (urlString
      { scheme := u.scheme, opq := u.opq, userinfo := u.userinfo, host := u.host,
        path := if s.pfx ≠ [] then pathJoin s.pfx u.path else u.path,
        rawQuery := rq2, forceQuery := u.forceQuery, omitHost := u.omitHost }) now =
      match b64urlDecode T with
      | none => some (.error .invalidSignatureB64)
      | some bs =>
          if bs ≠ blake2b256 s.key ((queryFormatter.buildPayload
              (queryFormatter.addExpiry u (expiryStr s L)) s.payloadOpts).map Char.toNat)
          then some (.error .invalidSignature)
          else if now > unixSec L * 1000000000 then some (.error .expired)
          else some (.ok ()) := by
  have hEunres : unresStr (expiryStr s L) = true :=
    List.all_eq_true.mpr (fun c hc => encode_unres s.enc _ hL0 c hc)
  have hEne : expiryStr s L ≠ [] := encode_ne_nil s.enc _ hL0 (by
    intro b hb
    rcases henc with h | h
    · rw [h] at hb
      injection hb with hb2
      omega
    · rw [h] at hb
      exact IntEnc.noConfusion hb)
  have hM0s := parseQuery_sorted u.rawQuery
  have hM0n := parseQuery_ne u.rawQuery
  have hM1 : parseQuery (qEncode (qAdd (parseQuery u.rawQuery) (str "expiry")
      (expiryStr s L))) = qAdd (parseQuery u.rawQuery) (str "expiry") (expiryStr s L) :=
    parseQuery_qEncode _ (qAdd_sorted _ _ _ hM0s)
      (qAdd_wf _ _ _ hq0 (by decide) hEunres) (qAdd_ne _ _ _ hM0n)
  have hfs : qHasKey (qAdd (parseQuery u.rawQuery) (str "expiry") (expiryStr s L))
      (str "signature") = false := by
    rw [Bool.eq_false_iff]
    intro hc
    rcases (qHasKey_qAdd _ _ _ _).mp hc with h | h
    · exact absurd h (by decide)
    · rw [hf2] at h
      exact Bool.noConfusion h
  unfold Signer.Verify
  rw [joined_path s.pfx u.path (hpfx.imp id And.left) hupath]
  rw [parseRequestURI_urlString _ (recordQ_wf s u rq2 hu hpfx hrq2)]
  dsimp only
  rw [if_neg (fun hn => hn (goHasPrefix_append _ _))]
  rw [List.drop_left]
  simp only [Signer.extractSignature, hfmt]
  unfold queryFormatter.extractSignature
  dsimp only
  rw [hparse]
  rw [qGet_qAdd_fresh _ _ _ hfs, qDel_qAdd_fresh _ _ _ hfs]
  rw [if_neg hTne]
  dsimp only
  cases hbd : b64urlDecode T with
  | none => rfl
  | some bs =>
      dsimp only
      simp only [Signer.buildPayload, hfmt, Signer.sign]
      rw [show ({ scheme := u.scheme, opq := u.opq, userinfo := u.userinfo, host := u.host,
                  path := u.path,
                  rawQuery := qEncode (qAdd (parseQuery u.rawQuery) (str "expiry")
                    (expiryStr s L)),
                  forceQuery := u.forceQuery, omitHost := u.omitHost } : URL)
        = queryFormatter.addExpiry u (expiryStr s L) from rfl]
      by_cases hcmp : bs ≠ blake2b256 s.key ((queryFormatter.buildPayload
          (queryFormatter.addExpiry u (expiryStr s L)) s.payloadOpts).map Char.toNat)
      · rw [if_pos hcmp, if_pos hcmp]
      · rw [if_neg hcmp, if_neg hcmp]
        simp only [Signer.extractExpiry, hfmt]
        unfold queryFormatter.extractExpiry queryFormatter.addExpiry
        dsimp only
        rw [hM1]
        rw [qGet_qAdd_fresh _ _ _ hf1]
        rw [if_neg hEne]
        dsimp only
        unfold expiryStr
        rcases henc with h10 | h58
        · rw [h10]
          simp only [IntEnc.Decode, IntEnc.Encode]
          rw [decimal_roundtrip _ hL0 hL1]
        · rw [h58]
          simp only [IntEnc.Decode, IntEnc.Encode]
          rw [base58_roundtrip _ hL0 hL1]

/-! ## Generic `Verify` evaluation with an arbitrary signature component and
raw query (path formatter) -/

theorem recordP_wf (s : Signer) (u : URL) (L : Int) (T rq2 : List Char)
    (hu : urlWF u = true)
    (hpfx : s.pfx = [] ∨ (rootedClean s.pfx = true ∧ ∀ x ∈ s.pfx, pathKeepChar x = true))
    (hTc : ∀ x ∈ T, isUnreserved x = true)
    (hEc : ∀ x ∈ expiryStr s L, isUnreserved x = true)
    (hrq2 : ∀ x ∈ rq2, queryCharOK x = true) :
    urlWF
      { scheme := u.scheme, opq := u.opq, userinfo := u.userinfo, host := u.host,
        path := s.pfx ++ '/' :: (T ++ '.' :: (expiryStr s L ++ u.path)),
        rawQuery := rq2,
        forceQuery := u.forceQuery, omitHost := u.omitHost } = true := by
  obtain ⟨hsch, hhost, hhostc, hpath, hpathc, hqc, hopq, hfq, homit, huser⟩ := urlWF_spec u hu
  simp only [urlWF, Bool.and_eq_true, Bool.or_eq_true, decide_eq_true_eq,
    List.all_eq_true]
  refine ⟨⟨⟨⟨⟨⟨⟨⟨⟨hsch, hhost⟩, hhostc⟩, ?_⟩, ?_⟩, hrq2⟩, hopq⟩, hfq⟩, homit⟩, huser⟩
  · rcases hpfx with hp0 | ⟨hpr, -⟩
    · rw [hp0, List.nil_append]
      simp
    · obtain ⟨r, hr, -⟩ := rootedClean_shape s.pfx hpr
      rw [hr]
      simp
  · intro x hx
    rcases List.mem_append.mp hx with hx | hx
    · rcases hpfx with hp0 | ⟨-, hpc⟩
      · rw [hp0] at hx
        cases hx
      · exact hpc x hx
    · rcases List.mem_cons.mp hx with rfl | hx
      · decide
      rcases List.mem_append.mp hx with hx | hx
      · exact isUnreserved_pathKeep x (hTc x hx)
      rcases List.mem_cons.mp hx with rfl | hx
      · decide
      rcases List.mem_append.mp hx with hx | hx
      · exact isUnreserved_pathKeep x (hEc x hx)
      · exact hpathc x hx


theorem verify_pathGeneric (s : Signer) (u : URL) (L now : Int) (T rq2 : List Char)
    (hfmt : s.fmt = .path)
    (henc : s.enc = .std 10 ∨ s.enc = .b58)
    (hu : urlWF u = true)
    (hpfx : s.pfx = [] ∨ (rootedClean s.pfx = true ∧ ∀ x ∈ s.pfx, pathKeepChar x = true))
    (hupath : rootedClean u.path = true)
    (hTne : T ≠ [])
    (hTc : ∀ x ∈ T, isUnreserved x = true ∧ x ≠ '.' ∧ x ≠ '/')
    (hrq2 : ∀ x ∈ rq2, queryCharOK x = true)
    (hL0 : 0 ≤ unixSec L) (hL1 : unixSec L < 2 ^ 63) :
    s.Verify (urlString
      { scheme := u.scheme, opq := u.opq, userinfo := u.userinfo, host := u.host,
        path := if s.pfx ≠ [] then
            pathJoin s.pfx ('/' :: (T ++ '.' :: (expiryStr s L ++ u.path)))
          else '/' :: (T ++ '.' :: (expiryStr s L ++ u.path)),
        rawQuery := rq2, forceQuery := u.forceQuery, omitHost := u.omitHost }) now =
      match b64urlDecode T with
      | none => some (.error .invalidSignatureB64)
      | some bs =>
          if bs ≠ blake2b256 s.key ((pathFormatter.buildPayload
              { scheme := u.scheme, opq := u.opq, userinfo := u.userinfo, host := u.host,
                path := expiryStr s L ++ u.path, rawQuery := rq2,
                forceQuery := u.forceQuery, omitHost := u.omitHost }
              s.payloadOpts).map Char.toNat)
          then some (.error .invalidSignature)
          else if now > unixSec L * 1000000000 then some (.error .expired)
          else some (.ok ()) := by
  have hEne : expiryStr s L ≠ [] := encode_ne_nil s.enc _ hL0 (by
    intro b hb
    rcases henc with h | h
    · rw [h] at hb
      injection hb with hb2
      omega
    · rw [h] at hb
      exact IntEnc.noConfusion hb)
  have hrc : rootedClean ('/' :: (T ++ '.' :: (expiryStr s L ++ u.path))) = true :=
    rootedClean_signed _ _ _ hTne
      (fun x hx => (hTc x hx).2.2)
      (fun x hx => (hTc x hx).2.1)
      (fun x hx => (alphabet_unres x (encode_mem s.enc _ hL0 x hx)).2.2)
      hupath
  obtain ⟨pt, hpt, -⟩ := rootedClean_shape u.path hupath
  unfold Signer.Verify
  rw [joined_path s.pfx _ (hpfx.imp id And.left) (Or.inr hrc)]
  rw [parseRequestURI_urlString _ (recordP_wf s u L T rq2 hu hpfx
    (fun x hx => (hTc x hx).1)
    (fun x hx => encode_unres s.enc _ hL0 x hx) hrq2)]
  dsimp only
  rw [if_neg (fun hn => hn (goHasPrefix_append _ _))]
  rw [List.drop_left]
  simp only [Signer.extractSignature, hfmt]
  unfold pathFormatter.extractSignature
  dsimp only
  rw [show '/' :: (T ++ '.' :: (expiryStr s L ++ u.path)) =
    ('/' :: T) ++ '.' :: (expiryStr s L ++ u.path) by simp]
  rw [cutChar_found '.' ('/' :: T) (expiryStr s L ++ u.path) (by
    intro a ha
    rcases List.mem_cons.mp ha with rfl | ha
    · decide
    · exact (hTc a ha).2.1)]
  dsimp only
  rw [if_neg (by simp)]
  dsimp only
  cases hbd : b64urlDecode T with
  | none => rfl
  | some bs =>
      dsimp only
      simp only [Signer.buildPayload, hfmt, Signer.sign]
      by_cases hcmp : bs ≠ blake2b256 s.key ((pathFormatter.buildPayload
          { scheme := u.scheme, opq := u.opq, userinfo := u.userinfo, host := u.host,
            path := expiryStr s L ++ u.path, rawQuery := rq2,
            forceQuery := u.forceQuery, omitHost := u.omitHost }
          s.payloadOpts).map Char.toNat)
      · rw [if_pos hcmp, if_pos hcmp]
      · rw [if_neg hcmp, if_neg hcmp]
        simp only [Signer.extractExpiry, hfmt]
        unfold pathFormatter.extractExpiry
        dsimp only
        rw [hpt]
        rw [cutChar_found '/' (expiryStr s L) pt (by
          intro a ha
          exact (alphabet_unres a (encode_mem s.enc _ hL0 a ha)).2.2)]
        dsimp only
        rw [if_neg (by simp)]
        dsimp only
        unfold expiryStr
        rcases henc with h10 | h58
        · rw [h10]
          simp only [IntEnc.Decode, IntEnc.Encode]
          rw [decimal_roundtrip _ hL0 hL1]
        · rw [h58]
          simp only [IntEnc.Decode, IntEnc.Encode]
          rw [base58_roundtrip _ hL0 hL1]

/-- C2 (corrected): replacing the signature component of a signed URL fails
verification with an error `errors.Is`-equal to `ErrInvalidSignature`
whenever the replacement no longer base64-decodes to the digest of the
payload — for both formatters.  The spec's unconditional form is false: a
byte change confined to the unused trailing bits of the final base64
character decodes to the same digest and `Verify` then succeeds
(`claim_C2_counterexample`). -/
theorem claim_C2 :
    (∀ (s : Signer) (u : URL) (L now : Int) (T : List Char),
      s.fmt = .query → (s.enc = .std 10 ∨ s.enc = .b58) → urlWF u = true →
      (s.pfx = [] ∨ (rootedClean s.pfx = true ∧ ∀ x ∈ s.pfx, pathKeepChar x = true)) →
      (u.path = [] ∨ rootedClean u.path = true) →
      qvalsWF (parseQuery u.rawQuery) = true →
      qHasKey (parseQuery u.rawQuery) (str "expiry") = false →
      qHasKey (parseQuery u.rawQuery) (str "signature") = false →
      T ≠ [] → unresStr T = true →
      0 ≤ unixSec L → unixSec L < 2 ^ 63 →
      (∀ bs, b64urlDecode T = some bs →
        bs ≠ blake2b256 s.key ((queryFormatter.buildPayload
          (queryFormatter.addExpiry u (expiryStr s L)) s.payloadOpts).map Char.toNat)) →
      ∃ e, s.Verify (urlString
          { scheme := u.scheme, opq := u.opq, userinfo := u.userinfo, host := u.host,
            path := if s.pfx ≠ [] then pathJoin s.pfx u.path else u.path,
            rawQuery := qEncode (qAdd (qAdd (parseQuery u.rawQuery) (str "expiry")
              (expiryStr s L)) (str "signature") T),
            forceQuery := u.forceQuery, omitHost := u.omitHost }) now =
        some (.error e) ∧ e.isInvalidSignature = true) ∧
    (∀ (s : Signer) (u : URL) (L now : Int) (T : List Char),
      s.fmt = .path → (s.enc = .std 10 ∨ s.enc = .b58) → urlWF u = true →
      (s.pfx = [] ∨ (rootedClean s.pfx = true ∧ ∀ x ∈ s.pfx, pathKeepChar x = true)) →
      rootedClean u.path = true →
      T ≠ [] → (∀ x ∈ T, isUnreserved x = true ∧ x ≠ '.' ∧ x ≠ '/') →
      0 ≤ unixSec L → unixSec L < 2 ^ 63 →
      (∀ bs, b64urlDecode T = some bs →
        bs ≠ blake2b256 s.key ((pathFormatter.buildPayload
          (pathFormatter.addExpiry u (expiryStr s L)) s.payloadOpts).map Char.toNat)) →
      ∃ e, s.Verify (urlString
          { scheme := u.scheme, opq := u.opq, userinfo := u.userinfo, host := u.host,
            path := if s.pfx ≠ [] then
                pathJoin s.pfx ('/' :: (T ++ '.' :: (expiryStr s L ++ u.path)))
              else '/' :: (T ++ '.' :: (expiryStr s L ++ u.path)),
            rawQuery := u.rawQuery,
            forceQuery := u.forceQuery, omitHost := u.omitHost }) now =
        some (.error e) ∧ e.isInvalidSignature = true) := by
  constructor
  · intro s u L now T hfmt henc hu hpfx hupath hq0 hf1 hf2 hTne hTun hL0 hL1 hbad
    have hEunres : unresStr (expiryStr s L) = true :=
      List.all_eq_true.mpr (fun c hc => encode_unres s.enc _ hL0 c hc)
    have hM0s := parseQuery_sorted u.rawQuery
    have hM0n := parseQuery_ne u.rawQuery
    have hwq : qvalsWF (qAdd (qAdd (parseQuery u.rawQuery) (str "expiry")
        (expiryStr s L)) (str "signature") T) = true :=
      qAdd_wf _ _ _ (qAdd_wf _ _ _ hq0 (by decide) hEunres) (by decide) hTun
    have hparse := parseQuery_qEncode
      (qAdd (qAdd (parseQuery u.rawQuery) (str "expiry") (expiryStr s L))
        (str "signature") T)
      (qAdd_sorted _ _ _ (qAdd_sorted _ _ _ hM0s)) hwq
      (qAdd_ne _ _ _ (qAdd_ne _ _ _ hM0n))
    rw [verify_queryGeneric s u L now T _ hfmt henc hu hpfx hupath hq0 hf1 hf2
      (qEncode_chars _ hwq) hparse hTne hL0 hL1]
    cases hbd : b64urlDecode T with
    | none => exact ⟨.invalidSignatureB64, rfl, rfl⟩
    | some bs =>
        dsimp only
        rw [if_pos (hbad bs hbd)]
        exact ⟨.invalidSignature, rfl, rfl⟩
  · intro s u L now T hfmt henc hu hpfx hupath hTne hTc hL0 hL1 hbad
    have hqc : ∀ x ∈ u.rawQuery, queryCharOK x = true :=
      (urlWF_spec u hu).2.2.2.2.2.1
    rw [verify_pathGeneric s u L now T u.rawQuery hfmt henc hu hpfx hupath hTne
      hTc hqc hL0 hL1]
    rw [show ({ scheme := u.scheme, opq := u.opq, userinfo := u.userinfo, host := u.host,
                path := expiryStr s L ++ u.path, rawQuery := u.rawQuery,
                forceQuery := u.forceQuery, omitHost := u.omitHost } : URL)
      = pathFormatter.addExpiry u (expiryStr s L) from rfl]
    cases hbd : b64urlDecode T with
    | none => exact ⟨.invalidSignatureB64, rfl, rfl⟩
    | some bs =>
        dsimp only
        rw [if_pos (hbad bs hbd)]
        exact ⟨.invalidSignature, rfl, rfl⟩

/-- Witness for C2: the four-character signature component `AAAA` decodes to
three zero bytes, which differ from the digest, so verification fails with an
`ErrInvalidSignature`-compatible error. -/
theorem claim_C2_witness :
    ∃ e, (New (strBytes "secret") []).Verify (urlString
      { scheme := str "https", opq := [], host := str "abc.com",
        path := if (New (strBytes "secret") []).pfx ≠ [] then
            pathJoin (New (strBytes "secret") []).pfx (str "/foo")
          else str "/foo",
        rawQuery := qEncode (qAdd (qAdd (parseQuery [])
          (str "expiry") (expiryStr (New (strBytes "secret") []) 1000000000))
          (str "signature") (str "AAAA")),
        forceQuery := false, omitHost := false }) 0 =
      some (.error e) ∧ e.isInvalidSignature = true :=
  claim_C2.1 (New (strBytes "secret") [])
    { scheme := str "https", host := str "abc.com", path := str "/foo" }
    1000000000 0 (str "AAAA")
    (by decide) (by decide) (by decide) (by decide) (by decide) (by decide)
    (by decide) (by decide) (by decide) (by decide) (by decide) (by decide)
    (fun bs hbs => by
      rw [show b64urlDecode (str "AAAA") = some [0, 0, 0] from by decide] at hbs
      injection hbs with h
      rw [← h]
      decide)

/-- C2 counterexample: changing the final byte of the signature component
from `I` to `J` alters only the two trailing base64 bits that the Go
`RawURLEncoding` decoder ignores, so the tampered URL still verifies. -/
theorem claim_C2_counterexample :
    (New (strBytes "secret") []).Sign (str "https://abc.com/foo") 1000000000 =
      .ok (str "https://abc.com/foo?expiry=1&signature=DWRvKe2-qDLPUhn7w-1mEb7xSjuNp-OeCm_JP3S4tdI") ∧
    (New (strBytes "secret") []).Verify
      (str "https://abc.com/foo?expiry=1&signature=DWRvKe2-qDLPUhn7w-1mEb7xSjuNp-OeCm_JP3S4tdJ")
      500000000 = some (.ok ()) := by
  constructor
  · decide
  · decide

/-! ## Claim C3: query-parameter reordering -/

/-- C4 (code bug): the `skipScheme` field that the `SkipScheme` option sets
is read nowhere — both `buildPayload` implementations consult only
`skipQuery` — so signers differing only in `skipScheme` have pointwise
identical `Sign` and `Verify`.  Consequently a `SkipScheme` signer REJECTS
an `https → http` scheme change on a URL it signed, with
`ErrInvalidSignature`, contradicting the option's documented behaviour (the
repository's own skip-scheme example and the spec). -/
theorem claim_C4 :
    (∀ (s : Signer) (inp : List Char) (e now : Int),
      Signer.Sign { s with skipScheme := true } inp e =
        Signer.Sign { s with skipScheme := false } inp e ∧
      Signer.Verify { s with skipScheme := true } inp now =
        Signer.Verify { s with skipScheme := false } inp now) ∧
    (New (strBytes "secret") [SkipScheme]).Sign (str "https://abc.com/foo")
        2000000000000000000 =
      .ok (str "https://abc.com/foo?expiry=2000000000&signature=5JP9sd12tD9iS8XMNKjU0-q0ySnMvvwbVlAY-K0n-q0") ∧
    (New (strBytes "secret") [SkipScheme]).Verify
      (str "http://abc.com/foo?expiry=2000000000&signature=5JP9sd12tD9iS8XMNKjU0-q0ySnMvvwbVlAY-K0n-q0")
      0 = some (.error .invalidSignature) := by
  refine ⟨fun s inp e now => ⟨rfl, rfl⟩, by decide, by decide⟩

/-! ## Claim C5: expiry enforcement -/

end Surl
